import Mathlib

/-!
Verification of the athlete re-identification clustering engine of the
skiframes web gallery (the `Clustering` module: `cosineSimilarity`,
`cluster`, `_averageEmbedding`, `_applyOverrides`, `_preserveLabels`).

Modelling conventions.
* JS numbers are modelled as real numbers; the agglomerative core is
  written over an arbitrary linear ordered field `β` together with an
  abstract similarity function, and the source entry points are the
  instantiations at `β := ℝ` with the source cosine similarity.
* The JS sentinel `bestI = -1` of the merge-loop pair search is modelled
  as the `none` case of an `Option (Nat × Nat)`; the accompanying
  `bestSim = -1` initial accumulator is kept as in the source.
* The `while (true)` merge loop is modelled with explicit fuel
  `n = number of initial clusters`; the termination theorem below shows
  that `n - 1` iterations already reach the loop's fixed point, which is
  exactly the termination argument for the JS loop.
* Out-of-bounds array reads inside `_averageEmbedding` (which in JS
  produce `NaN` on ragged member embeddings) are modelled by the
  default value `0`; no theorem below depends on the numeric value of a
  centroid.
* JS objects keyed by cluster id are modelled as association lists in
  insertion order, and the `Set` of seen run numbers as a `List Int`
  used only through membership.
-/

namespace Clustering

/-- Input run record: a montage carrying a run number and an optional
embedding vector (absent embeddings are excluded from clustering). -/
structure Montage (β : Type) where
  run_number : Int
  embedding : Option (List β)

/-- Output cluster record as built by `cluster`'s finalize phase. -/
structure Cluster where
  label : String
  color : String
  representative_run : Int
  run_numbers : List Int
deriving DecidableEq

/-- Previously persisted state: saved clusters and manual overrides,
each field optional (the JS code guards on their presence). -/
structure SavedState where
  clusters : Option (List (String × Cluster))
  manual_overrides : Option (List (Int × String))

/-- Default color palette for athlete cards. -/
def COLORS : List String :=
  ["#2563eb", "#dc2626", "#16a34a", "#d97706", "#7c3aed",
   "#db2777", "#0891b2", "#65a30d", "#ea580c", "#6366f1",
   "#0d9488", "#ca8a04", "#e11d48", "#4f46e5", "#059669"]

variable {β : Type} [LinearOrderedField β]

/-- Dot product accumulated by the single loop of `cosineSimilarity`. -/
def dotProd (x y : List β) : β :=
  ((x.zip y).map (fun p => p.1 * p.2)).sum

/-- Sum of squares (the `normA` / `normB` accumulators of
`cosineSimilarity`). -/
def sumSq (x : List β) : β :=
  (x.map (fun v => v * v)).sum

/-- Core of `cosineSimilarity` on two actual vectors: `0` on length
mismatch, `dot / (sqrt normA * sqrt normB)` when the denominator is
positive, `0` otherwise. -/
noncomputable def cosineSimilarityL (x y : List ℝ) : ℝ :=
  if x.length = y.length then
    let denom := Real.sqrt (sumSq x) * Real.sqrt (sumSq y)
    if 0 < denom then dotProd x y / denom else 0
  else 0

/-- Source `cosineSimilarity(a, b)`: absent argument (`!a || !b`)
yields `0`, otherwise the vector computation. -/
noncomputable def cosineSimilarity (a b : Option (List ℝ)) : ℝ :=
  match a, b with
  | some x, some y => cosineSimilarityL x y
  | _, _ => 0

/-- Filter phase of `cluster`: keep montages with a present, non-empty
embedding, deduplicated by run number; `seen` is the JS `seenRuns` set
(run numbers are added only when a montage is kept). -/
def filterDedup : List (Montage β) → List Int → List (Montage β)
  | [], _ => []
  | m :: ms, seen =>
    match m.embedding with
    | none => filterDedup ms seen
    | some e =>
      if e.length = 0 then filterDedup ms seen
      else if m.run_number ∈ seen then filterDedup ms seen
      else m :: filterDedup ms (m.run_number :: seen)

/-- Working cluster of the merge loop: member run numbers and the
current centroid (the `embedding` field of the JS cluster object). -/
structure CEntry (β : Type) where
  runs : List Int
  embedding : List β

/-- Default entry used for (provably in-range) list indexing. -/
def emptyEntry : CEntry β := ⟨[], []⟩

/-- State of the merge loop: the cluster arena, the pairwise similarity
matrix and the per-slot active flags. -/
structure CState (β : Type) where
  clusters : List (CEntry β)
  simMatrix : List (List β)
  active : List Bool

/-- Element-wise average of member embeddings (`_averageEmbedding`):
dimension taken from the first member, per-index sum divided by the
member count. An out-of-bounds member read is modelled as `0` (JS
produces `NaN` there). -/
def averageEmbedding (embeddings : List (List β)) : List β :=
  match embeddings with
  | [] => []
  | e0 :: _ =>
    (List.range e0.length).map (fun i =>
      (embeddings.map (fun emb => emb.getD i 0)).sum / (embeddings.length : β))

/-- Initial clusters: one singleton cluster per kept montage, holding
that montage's own embedding as centroid. -/
def initClusters (we : List (Montage β)) : List (CEntry β) :=
  we.map (fun m => ⟨[m.run_number], m.embedding.getD []⟩)

/-- Initial similarity matrix: `-1` on the diagonal, pairwise
similarity elsewhere. -/
def initMatrix (simF : List β → List β → β) (cs : List (CEntry β)) : List (List β) :=
  (List.range cs.length).map (fun i =>
    (List.range cs.length).map (fun j =>
      if i = j then -1 else simF (cs.getD i emptyEntry).embedding (cs.getD j emptyEntry).embedding))

/-- Initial merge-loop state over the kept montages. -/
def initState (simF : List β → List β → β) (we : List (Montage β)) : CState β :=
  ⟨initClusters we, initMatrix simF (initClusters we), List.replicate we.length true⟩

/-- Pairs `(i, j)` with `i < j < n` in the scan order of the JS double
loop (outer `i` ascending, inner `j` ascending from `i + 1`). -/
def pairList (n : Nat) : List (Nat × Nat) :=
  (List.range n).flatMap (fun i =>
    ((List.range n).filter (fun j => decide (i < j))).map (fun j => (i, j)))

/-- Pair search of the merge loop: fold over all `i < j` pairs keeping
the strictly best similarity among pairs of active clusters. The JS
sentinel `bestI = -1` is the `none` component. -/
def findBestCore (act : List Bool) (mtx : List (List β)) (n : Nat) : β × Option (Nat × Nat) :=
  (pairList n).foldl
    (fun acc p =>
      if (act.getD p.1 false) = true ∧ (act.getD p.2 false) = true then
        if acc.1 < (mtx.getD p.1 []).getD p.2 0 then ((mtx.getD p.1 []).getD p.2 0, some p)
        else acc
      else acc)
    (-1, none)

/-- Pair search applied to a merge-loop state. -/
def findBest (st : CState β) : β × Option (Nat × Nat) :=
  findBestCore st.active st.simMatrix st.clusters.length

/-- Centroid lookup by run number in the kept montages
(`withEmbeddings.find(m => m.run_number === rn).embedding`; by the loop
invariant every clustered run is a kept montage). -/
def lookupEmb (we : List (Montage β)) (rn : Int) : List β :=
  match we.find? (fun m => m.run_number == rn) with
  | some m => m.embedding.getD []
  | none => []

/-- Nested-list write `simMatrix[i][j] = v`. -/
def setSim (mtx : List (List β)) (i j : Nat) (v : β) : List (List β) :=
  mtx.set i ((mtx.getD i []).set j v)

/-- One merge of the loop body: absorb cluster `j` into cluster `i`,
recompute the centroid from the member embeddings, deactivate `j`, and
refresh row and column `i` of the similarity matrix against every
other active cluster. -/
def stepMerge (simF : List β → List β → β) (we : List (Montage β))
    (st : CState β) (i j : Nat) : CState β :=
  let ci := st.clusters.getD i emptyEntry
  let cj := st.clusters.getD j emptyEntry
  let runs2 := ci.runs ++ cj.runs
  let cent := averageEmbedding (runs2.map (fun rn => lookupEmb we rn))
  let clusters2 := st.clusters.set i ⟨runs2, cent⟩
  let active2 := st.active.set j false
  let sim2 := (List.range st.clusters.length).foldl
    (fun mtx k =>
      if (active2.getD k false) = true ∧ k ≠ i then
        setSim (setSim mtx i k (simF cent (clusters2.getD k emptyEntry).embedding))
          k i (simF cent (clusters2.getD k emptyEntry).embedding)
      else mtx)
    st.simMatrix
  ⟨clusters2, sim2, active2⟩

/-- Merge loop (`while (true)` of `cluster`, with explicit fuel): stop
when no active pair exists (`bestI === -1`) or the best similarity is
below the threshold, otherwise merge the best pair and continue. -/
def mergeLoop (simF : List β → List β → β) (we : List (Montage β)) (threshold : β) :
    Nat → CState β → CState β
  | 0, st => st
  | Nat.succ fuel, st =>
    match findBest st with
    | (bestSim, some ij) =>
      if bestSim < threshold then st
      else mergeLoop simF we threshold fuel (stepMerge simF we st ij.1 ij.2)
    | (_, none) => st

/-- Result entry for surviving cluster slot `i` with sequential athlete
index `idx`. In the JS object literal `representative_run` is evaluated
before the in-place `sort`, so it is the head of the runs list in
encounter order. -/
def mkEntry (st : CState β) (i : Nat) (idx : Nat) : String × Cluster :=
  ("athlete_" ++ toString idx,
   { label := "Athlete " ++ toString idx,
     color := COLORS.getD ((idx - 1) % COLORS.length) "",
     representative_run := (st.clusters.getD i emptyEntry).runs.headD 0,
     run_numbers := List.insertionSort (fun a b => a ≤ b) (st.clusters.getD i emptyEntry).runs })

/-- Finalize phase: walk the slots in order, emitting one entry per
surviving active cluster with sequential ids `athlete_1`, ... . -/
def buildFrom (st : CState β) : List Nat → Nat → List (String × Cluster)
  | [], _ => []
  | i :: rest, idx =>
    if st.active.getD i false = true then mkEntry st i idx :: buildFrom st rest (idx + 1)
    else buildFrom st rest idx

/-- Removal step of `_applyOverrides`: delete run `r` from the first
cluster whose `run_numbers` contains it (`splice` at `indexOf`). -/
def removeRun (r : Int) : List (String × Cluster) → List (String × Cluster)
  | [] => []
  | e :: rest =>
    if r ∈ e.2.run_numbers then
      (e.1, { e.2 with run_numbers := e.2.run_numbers.erase r }) :: rest
    else e :: removeRun r rest

/-- Insertion step of `_applyOverrides`: if a cluster with the target
id exists, push run `r` onto it and re-sort ascending; otherwise leave
everything unchanged (the run is dropped). -/
def addRun (r : Int) (target : String) : List (String × Cluster) → List (String × Cluster)
  | [] => []
  | e :: rest =>
    if e.1 = target then
      (e.1, { e.2 with run_numbers := List.insertionSort (fun a b => a ≤ b) (e.2.run_numbers ++ [r]) }) :: rest
    else e :: addRun r target rest

/-- Source `_applyOverrides`: process each `(run, target id)` override
in order (remove, then add), then delete clusters left empty. -/
def applyOverrides (cs : List (String × Cluster)) (overrides : List (Int × String)) :
    List (String × Cluster) :=
  (overrides.foldl (fun acc p => addRun p.1 p.2 (removeRun p.1 acc)) cs).filter
    (fun e => !e.2.run_numbers.isEmpty)

/-- Overlap of a new cluster's run set with a saved cluster's run set
(`filter(rn => saved.includes(rn)).length`). -/
def overlap (a b : List Int) : Nat :=
  (a.filter (fun rn => b.contains rn)).length

/-- Best-match scan of `_preserveLabels`: fold over the saved clusters
keeping the first cluster whose overlap strictly beats the running
best (which starts at `0`). -/
def bestSaved (nrs : List Int) : List (String × Cluster) → Option Cluster × Nat → Option Cluster × Nat
  | [], acc => acc
  | sc :: rest, acc =>
    bestSaved nrs rest
      (if acc.2 < overlap nrs sc.2.run_numbers then (some sc.2, overlap nrs sc.2.run_numbers)
       else acc)

/-- Test for the default label pattern `/^Athlete \d+$/`. -/
def isDefaultLabel (s : String) : Bool :=
  s.startsWith "Athlete " && !(s.drop 8).isEmpty && (s.drop 8).all Char.isDigit

/-- Source `_preserveLabels`: for each new cluster, find the saved
cluster with the largest run-number overlap; when that overlap is
positive and the saved label is not a default label, copy it. -/
def preserveLabels (newClusters savedClusters : List (String × Cluster)) :
    List (String × Cluster) :=
  newClusters.map (fun e =>
    match bestSaved e.2.run_numbers savedClusters (none, 0) with
    | (some bm, bo) =>
      if 0 < bo ∧ isDefaultLabel bm.label = false then (e.1, { e.2 with label := bm.label })
      else e
    | (none, _) => e)

/-- Generic `cluster` over an abstract similarity: filter and dedup,
build singleton clusters and the similarity matrix, run the merge loop
(fuel `n` covers the at most `n - 1` merges), finalize, then apply the
two reconciliation passes when saved state is present. -/
def clusterW (simF : List β → List β → β) (montages : List (Montage β)) (threshold : β)
    (savedClusters : Option SavedState) : List (String × Cluster) :=
  let we := filterDedup montages []
  if we.length = 0 then []
  else
    let st := mergeLoop simF we threshold we.length (initState simF we)
    let result := buildFrom st (List.range we.length) 1
    let result2 :=
      match savedClusters with
      | some sc =>
        match sc.manual_overrides with
        | some ov => applyOverrides result ov
        | none => result
      | none => result
    match savedClusters with
    | some sc =>
      match sc.clusters with
      | some saved => preserveLabels result2 saved
      | none => result2
    | none => result2

/-- Source `cluster(montages, threshold, savedClusters)`: the generic
algorithm instantiated with the source cosine similarity over ℝ. -/
noncomputable def cluster (montages : List (Montage ℝ)) (threshold : ℝ)
    (savedClusters : Option SavedState) : List (String × Cluster) :=
  clusterW cosineSimilarityL montages threshold savedClusters

/-- Concatenation of all run numbers of a cluster assignment, used to
state the partition property. -/
def runsFlat (cs : List (String × Cluster)) : List Int :=
  cs.flatMap (fun e => e.2.run_numbers)

/-- Run lists of the active slots of a merge-loop state, in slot order. -/
def activeRuns (st : CState β) : List Int :=
  (List.range st.clusters.length).flatMap (fun k =>
    if st.active.getD k false = true then (st.clusters.getD k emptyEntry).runs else [])

/-- Well-formedness of a merge-loop state: the active-flag array has
one slot per cluster. -/
def WF (st : CState β) : Prop :=
  st.active.length = st.clusters.length

/-- Invariant of the pair-search fold: the accumulator is either still
the sentinel or a valid active pair. -/
def ValidPair {γ : Type _} (act : List Bool) (n : Nat) (acc : γ × Option (Nat × Nat)) : Prop :=
  acc.2 = none ∨ ∃ i j, acc.2 = some (i, j) ∧ i < j ∧ j < n ∧
    act.getD i false = true ∧ act.getD j false = true

/-! Threshold monotonicity of the merge loop -/

/-- Refinement between merge-loop states: every active cluster of the
first is contained in some active cluster of the second. -/
def Refines (s s2 : CState β) : Prop :=
  ∀ i, i < s.clusters.length → s.active.getD i false = true →
    ∃ j, j < s2.clusters.length ∧ s2.active.getD j false = true ∧
      ∀ r ∈ (s.clusters.getD i emptyEntry).runs, r ∈ (s2.clusters.getD j emptyEntry).runs

/-! Termination of the merge loop -/

/-- Number of active slots of a state. -/
def countActive (st : CState β) : Nat :=
  ((Finset.range st.clusters.length).filter (fun k => st.active.getD k false = true)).card

/-- Run `r` sits in the cluster with id `B` and in no other cluster. -/
def OnlyIn (r : Int) (B : String) (cs : List (String × Cluster)) : Prop :=
  (∃ e ∈ cs, e.1 = B ∧ r ∈ e.2.run_numbers) ∧
    ∀ e ∈ cs, r ∈ e.2.run_numbers → e.1 = B

/-- Loop invariant: every active slot holds a nonempty run list. -/
def RunsNonempty (st : CState β) : Prop :=
  ∀ i, i < st.clusters.length → st.active.getD i false = true →
    (st.clusters.getD i emptyEntry).runs ≠ []

/-! Characterisation of the best-match scan of preserveLabels -/

/-- Running maximum of overlaps, seeded with `k` (the fold computed by
the `bestOverlap` accumulator of `_preserveLabels`). -/
def foldMaxOv (nrs : List Int) (k : Nat) (l : List (String × Cluster)) : Nat :=
  l.foldl (fun b sc => max b (overlap nrs sc.2.run_numbers)) k

/-- Largest run-number overlap of a new cluster with any saved cluster. -/
def maxOverlap (nrs : List Int) (saved : List (String × Cluster)) : Nat :=
  foldMaxOv nrs 0 saved

/-! Store-passing model of cluster for the frame property

The pure model above cannot distinguish in-place mutation from copying,
so the frame claim (the input embedding arrays are never written) is
settled on a second transcription of the same source in which embedding
arrays live in an explicit store: a reference is an index into the
store, the initial clusters alias the input references exactly as the
JS code aliases `m.embedding`, and `_averageEmbedding` allocates one
fresh cell per merge (the only store write in the whole algorithm). -/

/-- Run record whose embedding is a reference into the store. -/
structure MontageRef where
  run_number : Int
  embedding : Option Nat

/-- Store of embedding arrays; allocation appends a cell at the end. -/
abbrev Store := List (List ℝ)

/-- Read the array behind a reference. -/
def readVec (σ : Store) (r : Nat) : List ℝ := σ.getD r []

/-- Dedup filter at the store level (the length test reads the array). -/
def filterDedupH (σ : Store) : List MontageRef → List Int → List MontageRef
  | [], _ => []
  | m :: ms, seen =>
    match m.embedding with
    | none => filterDedupH σ ms seen
    | some ref =>
      if (readVec σ ref).length = 0 then filterDedupH σ ms seen
      else if m.run_number ∈ seen then filterDedupH σ ms seen
      else m :: filterDedupH σ ms (m.run_number :: seen)

/-- Working cluster holding a reference to its centroid array. -/
structure CEntryH where
  runs : List Int
  embedding : Nat

/-- Default entry for in-range indexing. -/
def emptyEntryH : CEntryH := ⟨[], 0⟩

/-- Merge-loop state at the store level. -/
structure CStateH where
  clusters : List CEntryH
  simMatrix : List (List ℝ)
  active : List Bool

/-- Cosine similarity of two referenced arrays (reads only). -/
noncomputable def cosSimRefs (σ : Store) (r1 r2 : Nat) : ℝ :=
  cosineSimilarityL (readVec σ r1) (readVec σ r2)

/-- Initial clusters alias the input embedding references. -/
def initClustersH (we : List MontageRef) : List CEntryH :=
  we.map (fun m => ⟨[m.run_number], m.embedding.getD 0⟩)

/-- Initial similarity matrix computed by reading the store. -/
noncomputable def initMatrixH (σ : Store) (cs : List CEntryH) : List (List ℝ) :=
  (List.range cs.length).map (fun i =>
    (List.range cs.length).map (fun j =>
      if i = j then -1
      else cosSimRefs σ (cs.getD i emptyEntryH).embedding (cs.getD j emptyEntryH).embedding))

/-- Initial merge-loop state at the store level. -/
noncomputable def initStateH (σ : Store) (we : List MontageRef) : CStateH :=
  ⟨initClustersH we, initMatrixH σ (initClustersH we), List.replicate we.length true⟩

/-- Centroid reference lookup by run number. -/
def lookupEmbRef (we : List MontageRef) (rn : Int) : Nat :=
  match we.find? (fun m => m.run_number == rn) with
  | some m => m.embedding.getD 0
  | none => 0

/-- `_averageEmbedding` at the store level: read the member arrays,
allocate one fresh cell holding their element-wise average, and return
its reference; only the fresh cell is written. -/
noncomputable def averageEmbeddingH (σ : Store) (refs : List Nat) : Store × Nat :=
  (σ ++ [averageEmbedding (refs.map (readVec σ))], σ.length)

/-- One merge at the store level: the merged centroid is a freshly
allocated cell, never a write into an existing one. -/
noncomputable def stepMergeH (we : List MontageRef) (σ : Store) (st : CStateH) (i j : Nat) :
    Store × CStateH :=
  let ci := st.clusters.getD i emptyEntryH
  let cj := st.clusters.getD j emptyEntryH
  let runs2 := ci.runs ++ cj.runs
  let alloc := averageEmbeddingH σ (runs2.map (fun rn => lookupEmbRef we rn))
  let clusters2 := st.clusters.set i ⟨runs2, alloc.2⟩
  let active2 := st.active.set j false
  let sim2 := (List.range st.clusters.length).foldl
    (fun mtx k =>
      if (active2.getD k false) = true ∧ k ≠ i then
        setSim (setSim mtx i k
            (cosSimRefs alloc.1 alloc.2 (clusters2.getD k emptyEntryH).embedding))
          k i (cosSimRefs alloc.1 alloc.2 (clusters2.getD k emptyEntryH).embedding)
      else mtx)
    st.simMatrix
  (alloc.1, ⟨clusters2, sim2, active2⟩)

/-- Pair search at the store level (reads the matrix only). -/
noncomputable def findBestH (st : CStateH) : ℝ × Option (Nat × Nat) :=
  findBestCore st.active st.simMatrix st.clusters.length

/-- Merge loop at the store level, threading the store. -/
noncomputable def mergeLoopH (we : List MontageRef) (t : ℝ) :
    Nat → Store × CStateH → Store × CStateH
  | 0, s => s
  | Nat.succ fuel, s =>
    match findBestH s.2 with
    | (bestSim, some ij) =>
      if bestSim < t then s
      else mergeLoopH we t fuel (stepMergeH we s.1 s.2 ij.1 ij.2)
    | (_, none) => s

/-- Result entry at the store level (run data only, no references). -/
def mkEntryH (st : CStateH) (i idx : Nat) : String × Cluster :=
  ("athlete_" ++ toString idx,
   { label := "Athlete " ++ toString idx,
     color := COLORS.getD ((idx - 1) % COLORS.length) "",
     representative_run := (st.clusters.getD i emptyEntryH).runs.headD 0,
     run_numbers := List.insertionSort (fun a b => a ≤ b) (st.clusters.getD i emptyEntryH).runs })

/-- Finalize phase at the store level. -/
def buildFromH (st : CStateH) : List Nat → Nat → List (String × Cluster)
  | [], _ => []
  | i :: rest, idx =>
    if st.active.getD i false = true then mkEntryH st i idx :: buildFromH st rest (idx + 1)
    else buildFromH st rest idx

/-- Source `cluster` at the store level: same phases as `clusterW`,
returning the result together with the final store. -/
noncomputable def clusterH (montages : List MontageRef) (threshold : ℝ)
    (savedClusters : Option SavedState) (σ : Store) : List (String × Cluster) × Store :=
  let we := filterDedupH σ montages []
  if we.length = 0 then ([], σ)
  else
    let res := mergeLoopH we threshold we.length (σ, initStateH σ we)
    let result := buildFromH res.2 (List.range we.length) 1
    let result2 :=
      match savedClusters with
      | some sc =>
        match sc.manual_overrides with
        | some ov => applyOverrides result ov
        | none => result
      | none => result
    let result3 :=
      match savedClusters with
      | some sc =>
        match sc.clusters with
        | some saved => preserveLabels result2 saved
        | none => result2
      | none => result2
    (result3, res.1)

/-! Theorems. -/

/-! Generic list helpers -/

theorem getD_set_self {α : Type _} (l : List α) (i : Nat) (a d : α) (h : i < l.length) :
    (l.set i a).getD i d = a := by
  rw [List.getD_eq_getElem?_getD, List.getElem?_set_self', List.getElem?_eq_getElem h]
  rfl

theorem getD_set_ne {α : Type _} (l : List α) {i j : Nat} (a d : α) (h : i ≠ j) :
    (l.set i a).getD j d = l.getD j d := by
  rw [List.getD_eq_getElem?_getD, List.getElem?_set_ne h, ← List.getD_eq_getElem?_getD]

theorem getD_replicate {α : Type _} {n i : Nat} (a d : α) (h : i < n) :
    (List.replicate n a).getD i d = a := by
  rw [List.getD_eq_getElem?_getD, List.getElem?_replicate, if_pos h]
  rfl

theorem getD_map_lt {α γ : Type _} (f : α → γ) (l : List α) {k : Nat} (h : k < l.length)
    (d : α) (d2 : γ) : (l.map f).getD k d2 = f (l.getD k d) := by
  have h2 : k < (l.map f).length := by simpa using h
  rw [List.getD_eq_getElem _ _ h2, List.getD_eq_getElem _ _ h, List.getElem_map]

theorem foldl_preserve {A B : Type _} (P : A → Prop) (Q : B → Prop) {f : A → B → A} :
    ∀ (l : List B) (acc : A), P acc → (∀ b ∈ l, Q b) →
      (∀ a b, P a → Q b → P (f a b)) → P (l.foldl f acc)
  | [], _, h, _, _ => h
  | b :: l, acc, h, hq, hstep =>
    foldl_preserve P Q l (f acc b) (hstep acc b h (hq b (List.mem_cons_self b l)))
      (fun x hx => hq x (List.mem_cons_of_mem b hx)) hstep

theorem flatMap_range_cons {γ : Type _} (g : Nat → List γ) (n : Nat) :
    (List.range (n + 1)).flatMap g = g 0 ++ (List.range n).flatMap (fun k => g (k + 1)) := by
  rw [List.range_succ_eq_map, List.flatMap_cons, List.flatMap_map]

theorem range_flatMap_singleton {α γ : Type _} (f : α → γ) (d : α) :
    ∀ l : List α, (List.range l.length).flatMap (fun k => [f (l.getD k d)]) = l.map f
  | [] => rfl
  | a :: l => by
    rw [List.length_cons, flatMap_range_cons]
    simp only [List.getD_cons_zero, List.getD_cons_succ, List.map_cons]
    rw [range_flatMap_singleton f d l, List.singleton_append]

/-! The pair search -/

theorem mem_pairList {n : Nat} {p : Nat × Nat} (h : p ∈ pairList n) : p.1 < p.2 ∧ p.2 < n := by
  simp only [pairList, List.mem_flatMap, List.mem_map, List.mem_filter, List.mem_range] at h
  obtain ⟨i, _, j, ⟨hjn, hij⟩, rfl⟩ := h
  exact ⟨by simpa using hij, hjn⟩

theorem findBestCore_valid (act : List Bool) (mtx : List (List β)) (n : Nat) :
    ValidPair act n (findBestCore act mtx n) := by
  refine foldl_preserve (ValidPair act n) (fun p => p.1 < p.2 ∧ p.2 < n) (pairList n)
    ((-1 : β), none) (Or.inl rfl) (fun b hb => mem_pairList hb) ?_
  intro a b ha hb
  dsimp only
  split
  · rename_i hg
    split
    · exact Or.inr ⟨b.1, b.2, rfl, hb.1, hb.2, hg.1, hg.2⟩
    · exact ha
  · exact ha

theorem findBest_valid (st : CState β) : ValidPair st.active st.clusters.length (findBest st) :=
  findBestCore_valid st.active st.simMatrix st.clusters.length

/-! Shape preservation along the merge loop -/

theorem stepMerge_clusters_length (simF : List β → List β → β) (we : List (Montage β))
    (st : CState β) (i j : Nat) :
    (stepMerge simF we st i j).clusters.length = st.clusters.length := by
  simp [stepMerge]

theorem stepMerge_active_length (simF : List β → List β → β) (we : List (Montage β))
    (st : CState β) (i j : Nat) :
    (stepMerge simF we st i j).active.length = st.active.length := by
  simp [stepMerge]

theorem stepMerge_WF (simF : List β → List β → β) (we : List (Montage β))
    (st : CState β) (i j : Nat) (h : WF st) : WF (stepMerge simF we st i j) := by
  unfold WF at h ⊢
  rw [stepMerge_clusters_length, stepMerge_active_length, h]

theorem mergeLoop_clusters_length (simF : List β → List β → β) (we : List (Montage β))
    (t : β) : ∀ (fuel : Nat) (st : CState β),
    (mergeLoop simF we t fuel st).clusters.length = st.clusters.length
  | 0, st => rfl
  | Nat.succ fuel, st => by
    rw [mergeLoop]
    rcases hfb : findBest st with ⟨s, o⟩
    rcases o with _ | ij
    · rfl
    · dsimp only
      split
      · rfl
      · rw [mergeLoop_clusters_length simF we t fuel, stepMerge_clusters_length]

theorem mergeLoop_WF (simF : List β → List β → β) (we : List (Montage β))
    (t : β) : ∀ (fuel : Nat) (st : CState β), WF st → WF (mergeLoop simF we t fuel st)
  | 0, _, h => h
  | Nat.succ fuel, st, h => by
    rw [mergeLoop]
    rcases hfb : findBest st with ⟨s, o⟩
    rcases o with _ | ij
    · exact h
    · dsimp only
      split
      · exact h
      · exact mergeLoop_WF simF we t fuel _ (stepMerge_WF simF we st ij.1 ij.2 h)

/-! The partition invariant of the merge loop -/

theorem sum_map_range {M : Type _} [AddCommMonoid M] (f : Nat → M) :
    ∀ n : Nat, ((List.range n).map f).sum = ∑ k ∈ Finset.range n, f k
  | 0 => rfl
  | n + 1 => by
    rw [List.range_succ, List.map_append, List.sum_append, Finset.sum_range_succ,
      sum_map_range f n]
    simp

theorem count_sum_swap (h h2 : Nat → Nat) (n i j : Nat) (hin : i < n) (hjn : j < n)
    (hij : i ≠ j) (hi : h2 i = h i + h j) (hj : h2 j = 0)
    (hk : ∀ k, k < n → k ≠ i → k ≠ j → h2 k = h k) :
    ∑ k ∈ Finset.range n, h2 k = ∑ k ∈ Finset.range n, h k := by
  have hiF : i ∈ Finset.range n := Finset.mem_range.mpr hin
  have hjF : j ∈ (Finset.range n).erase i :=
    Finset.mem_erase.mpr ⟨Ne.symm hij, Finset.mem_range.mpr hjn⟩
  have hcong : ∑ k ∈ ((Finset.range n).erase i).erase j, h2 k
      = ∑ k ∈ ((Finset.range n).erase i).erase j, h k := by
    refine Finset.sum_congr rfl ?_
    intro k hk2
    have h1 := Finset.mem_erase.mp hk2
    have h2m := Finset.mem_erase.mp h1.2
    exact hk k (Finset.mem_range.mp h2m.2) h2m.1 h1.1
  rw [← Finset.add_sum_erase _ h2 hiF, ← Finset.add_sum_erase _ h2 hjF,
    ← Finset.add_sum_erase _ h hiF, ← Finset.add_sum_erase _ h hjF, hcong, hi, hj]
  omega

theorem stepMerge_active (simF : List β → List β → β) (we : List (Montage β))
    (st : CState β) (i j : Nat) :
    (stepMerge simF we st i j).active = st.active.set j false := by
  simp [stepMerge]

theorem stepMerge_clusters (simF : List β → List β → β) (we : List (Montage β))
    (st : CState β) (i j : Nat) :
    (stepMerge simF we st i j).clusters
      = st.clusters.set i
          ⟨(st.clusters.getD i emptyEntry).runs ++ (st.clusters.getD j emptyEntry).runs,
           averageEmbedding
             (((st.clusters.getD i emptyEntry).runs ++ (st.clusters.getD j emptyEntry).runs).map
               (fun rn => lookupEmb we rn))⟩ := by
  simp [stepMerge]

theorem activeRuns_stepMerge (simF : List β → List β → β) (we : List (Montage β))
    (st : CState β) (i j : Nat) (hwf : WF st) (hij : i < j) (hjn : j < st.clusters.length)
    (hai : st.active.getD i false = true) (haj : st.active.getD j false = true) :
    (activeRuns (stepMerge simF we st i j)).Perm (activeRuns st) := by
  have hin : i < st.clusters.length := lt_trans hij hjn
  have hijne : i ≠ j := Nat.ne_of_lt hij
  rw [List.perm_iff_count]
  intro a
  unfold activeRuns
  rw [stepMerge_clusters_length, List.count_flatMap, List.count_flatMap,
    sum_map_range, sum_map_range]
  refine count_sum_swap _ _ st.clusters.length i j hin hjn hijne ?_ ?_ ?_
  · dsimp only [Function.comp]
    rw [stepMerge_active, stepMerge_clusters, getD_set_ne _ _ _ (Ne.symm hijne),
      getD_set_self _ _ _ _ hin, if_pos hai, if_pos hai, if_pos haj]
    exact List.count_append a _ _
  · dsimp only [Function.comp]
    rw [stepMerge_active, getD_set_self _ _ _ _ (by rw [hwf]; exact hjn), if_neg]
    · rfl
    · simp
  · intro k hkn hki hkj
    dsimp only [Function.comp]
    rw [stepMerge_active, stepMerge_clusters, getD_set_ne _ _ _ (Ne.symm hkj),
      getD_set_ne _ _ _ (Ne.symm hki)]

theorem activeRuns_mergeLoop (simF : List β → List β → β) (we : List (Montage β)) (t : β) :
    ∀ (fuel : Nat) (st : CState β), WF st →
      (activeRuns (mergeLoop simF we t fuel st)).Perm (activeRuns st)
  | 0, st, _ => List.Perm.refl _
  | Nat.succ fuel, st, hwf => by
    rw [mergeLoop]
    rcases hfb : findBest st with ⟨s, o⟩
    rcases o with _ | ij
    · exact List.Perm.refl _
    · dsimp only
      split
      · exact List.Perm.refl _
      · have hv := findBest_valid st
        rw [hfb] at hv
        rcases hv with hnone | ⟨i2, j2, hsome, hij, hjn, hai, haj⟩
        · exact absurd hnone (by simp)
        · have hpair : ij = (i2, j2) := by simpa using hsome
          subst hpair
          exact (activeRuns_mergeLoop simF we t fuel _
              (stepMerge_WF simF we st i2 j2 hwf)).trans
            (activeRuns_stepMerge simF we st i2 j2 hwf hij hjn hai haj)

theorem initState_WF (simF : List β → List β → β) (we : List (Montage β)) :
    WF (initState simF we) := by
  simp [WF, initState, initClusters]

theorem initState_clusters_length (simF : List β → List β → β) (we : List (Montage β)) :
    (initState simF we).clusters.length = we.length := by
  simp [initState, initClusters]

theorem flatMap_range_ext {γ : Type _} (g g2 : Nat → List γ) :
    ∀ n : Nat, (∀ k, k < n → g k = g2 k) →
      (List.range n).flatMap g = (List.range n).flatMap g2
  | 0, _ => rfl
  | n + 1, h => by
    rw [List.range_succ, List.flatMap_append, List.flatMap_append,
      flatMap_range_ext g g2 n (fun k hk => h k (Nat.lt_succ_of_lt hk))]
    simp [h n (Nat.lt_succ_self n)]

theorem activeRuns_initState (simF : List β → List β → β) (we : List (Montage β)) :
    activeRuns (initState simF we) = we.map Montage.run_number := by
  unfold activeRuns
  rw [initState_clusters_length]
  rw [flatMap_range_ext _ (fun k => [(we.getD k ⟨0, none⟩).run_number]) we.length ?_]
  · exact range_flatMap_singleton Montage.run_number ⟨0, none⟩ we
  · intro k hk
    show (if (List.replicate we.length true).getD k false = true
          then ((initClusters we).getD k emptyEntry).runs else []) = _
    rw [if_pos (by rw [getD_replicate _ _ hk])]
    unfold initClusters
    rw [getD_map_lt _ we hk ⟨0, none⟩]

/-! Finalize phase -/

theorem runsFlat_cons (e : String × Cluster) (l : List (String × Cluster)) :
    runsFlat (e :: l) = e.2.run_numbers ++ runsFlat l := rfl

theorem mkEntry_rep (st : CState β) (i idx : Nat) :
    (mkEntry st i idx).2.representative_run = (st.clusters.getD i emptyEntry).runs.headD 0 := rfl

theorem mkEntry_run_numbers (st : CState β) (i idx : Nat) :
    (mkEntry st i idx).2.run_numbers
      = List.insertionSort (fun a b => a ≤ b) (st.clusters.getD i emptyEntry).runs := rfl

theorem runsFlat_buildFrom (st : CState β) :
    ∀ (l : List Nat) (idx : Nat),
      (runsFlat (buildFrom st l idx)).Perm
        (l.flatMap (fun k =>
          if st.active.getD k false = true then (st.clusters.getD k emptyEntry).runs else []))
  | [], _ => List.Perm.refl _
  | k :: l, idx => by
    rw [buildFrom, List.flatMap_cons]
    split
    · rw [runsFlat_cons, mkEntry_run_numbers]
      exact List.Perm.append (List.perm_insertionSort _ _) (runsFlat_buildFrom st l (idx + 1))
    · rw [List.nil_append]
      exact runsFlat_buildFrom st l idx

/-- Members of the finalize output: every emitted entry comes from an
active slot, with the head of its runs list as representative and the
sorted runs list as `run_numbers`. -/
theorem mem_buildFrom (st : CState β) :
    ∀ (l : List Nat) (idx : Nat) (e : String × Cluster), e ∈ buildFrom st l idx →
      ∃ k ∈ l, st.active.getD k false = true ∧
        e.2.representative_run = (st.clusters.getD k emptyEntry).runs.headD 0 ∧
        e.2.run_numbers = List.insertionSort (fun a b => a ≤ b) (st.clusters.getD k emptyEntry).runs
  | [], _, e, h => absurd h (List.not_mem_nil e)
  | k :: l, idx, e, h => by
    rw [buildFrom] at h
    split at h
    · rename_i hk
      rcases List.mem_cons.mp h with he | he
      · exact ⟨k, List.mem_cons_self k l, hk, by rw [he, mkEntry_rep],
          by rw [he, mkEntry_run_numbers]⟩
      · obtain ⟨k2, hk2, h1, h2, h3⟩ := mem_buildFrom st l (idx + 1) e he
        exact ⟨k2, List.mem_cons_of_mem k hk2, h1, h2, h3⟩
    · obtain ⟨k2, hk2, h1, h2, h3⟩ := mem_buildFrom st l idx e h
      exact ⟨k2, List.mem_cons_of_mem k hk2, h1, h2, h3⟩

/-- Every active slot produces an entry in the finalize output. -/
theorem buildFrom_mem_of_active (st : CState β) :
    ∀ (l : List Nat) (idx : Nat) (k : Nat), k ∈ l → st.active.getD k false = true →
      ∃ e ∈ buildFrom st l idx,
        e.2.run_numbers = List.insertionSort (fun a b => a ≤ b) (st.clusters.getD k emptyEntry).runs
  | [], _, k, hk, _ => absurd hk (List.not_mem_nil k)
  | k2 :: l, idx, k, hk, hak => by
    rw [buildFrom]
    rcases List.mem_cons.mp hk with he | he
    · subst he
      rw [if_pos hak]
      exact ⟨mkEntry st k idx, List.mem_cons_self _ _, rfl⟩
    · split
      · obtain ⟨e, he2, h3⟩ := buildFrom_mem_of_active st l (idx + 1) k he hak
        exact ⟨e, List.mem_cons_of_mem _ he2, h3⟩
      · exact buildFrom_mem_of_active st l idx k he hak

/-! The dedup filter -/

theorem filterDedup_not_mem_seen :
    ∀ (ms : List (Montage β)) (seen : List Int) (r : Int),
      r ∈ (filterDedup ms seen).map Montage.run_number → r ∉ seen
  | [], _, r, h => absurd h (by simp [filterDedup])
  | m :: ms, seen, r, h => by
    rw [filterDedup] at h
    rcases hm : m.embedding with _ | e
    · rw [hm] at h
      exact filterDedup_not_mem_seen ms seen r h
    · rw [hm] at h
      dsimp only at h
      split at h
      · exact filterDedup_not_mem_seen ms seen r h
      · split at h
        · exact filterDedup_not_mem_seen ms seen r h
        · rename_i hlen hseen
          rcases List.mem_map.mp h with ⟨m2, hm2, hr⟩
          rcases List.mem_cons.mp hm2 with he | he
          · subst he
            rw [← hr]
            exact hseen
          · have := filterDedup_not_mem_seen ms (m.run_number :: seen) r
              (List.mem_map.mpr ⟨m2, he, hr⟩)
            intro hcon
            exact this (List.mem_cons_of_mem _ hcon)

theorem filterDedup_runs_nodup :
    ∀ (ms : List (Montage β)) (seen : List Int),
      ((filterDedup ms seen).map Montage.run_number).Nodup
  | [], _ => by simp [filterDedup]
  | m :: ms, seen => by
    rw [filterDedup]
    rcases hm : m.embedding with _ | e
    · exact filterDedup_runs_nodup ms seen
    · dsimp only
      split
      · exact filterDedup_runs_nodup ms seen
      · split
        · exact filterDedup_runs_nodup ms seen
        · rw [List.map_cons, List.nodup_cons]
          refine ⟨?_, filterDedup_runs_nodup ms (m.run_number :: seen)⟩
          intro hcon
          exact filterDedup_not_mem_seen ms (m.run_number :: seen) m.run_number hcon
            (List.mem_cons_self _ _)

/-! The partition property with no saved state -/

theorem runsFlat_clusterW_none (simF : List β → List β → β) (m : List (Montage β)) (t : β) :
    (runsFlat (clusterW simF m t none)).Perm ((filterDedup m []).map Montage.run_number) := by
  unfold clusterW
  dsimp only
  split
  · rename_i h
    rw [List.length_eq_zero.mp h]
    exact List.Perm.refl _
  · rename_i h
    have hwf := initState_WF simF (filterDedup m [])
    have hlen : (mergeLoop simF (filterDedup m []) t (filterDedup m []).length
        (initState simF (filterDedup m []))).clusters.length = (filterDedup m []).length := by
      rw [mergeLoop_clusters_length, initState_clusters_length]
    refine (runsFlat_buildFrom _ _ 1).trans ?_
    have hact : (List.range (filterDedup m []).length).flatMap
        (fun k => if (mergeLoop simF (filterDedup m []) t (filterDedup m []).length
            (initState simF (filterDedup m []))).active.getD k false = true
          then ((mergeLoop simF (filterDedup m []) t (filterDedup m []).length
            (initState simF (filterDedup m []))).clusters.getD k emptyEntry).runs else [])
        = activeRuns (mergeLoop simF (filterDedup m []) t (filterDedup m []).length
            (initState simF (filterDedup m []))) := by
      unfold activeRuns
      rw [hlen]
    rw [hact]
    refine (activeRuns_mergeLoop simF _ t _ _ hwf).trans ?_
    rw [activeRuns_initState]

/-! Manual overrides: effect on the flattened run multiset -/

theorem runsFlat_removeRun (r : Int) :
    ∀ cs : List (String × Cluster), runsFlat (removeRun r cs) = (runsFlat cs).erase r
  | [] => rfl
  | e :: cs => by
    rw [removeRun]
    split
    · rename_i hr
      rw [runsFlat_cons, runsFlat_cons, List.erase_append_left _ hr]
    · rename_i hr
      rw [runsFlat_cons, runsFlat_cons, List.erase_append_right _ hr,
        runsFlat_removeRun r cs]

theorem removeRun_ids (r : Int) :
    ∀ cs : List (String × Cluster), (removeRun r cs).map Prod.fst = cs.map Prod.fst
  | [] => rfl
  | e :: cs => by
    rw [removeRun]
    split
    · rfl
    · rw [List.map_cons, List.map_cons, removeRun_ids r cs]

theorem addRun_ids (r : Int) (t : String) :
    ∀ cs : List (String × Cluster), (addRun r t cs).map Prod.fst = cs.map Prod.fst
  | [] => rfl
  | e :: cs => by
    rw [addRun]
    split
    · rfl
    · rw [List.map_cons, List.map_cons, addRun_ids r t cs]

theorem addRun_of_not_mem (r : Int) (t : String) :
    ∀ cs : List (String × Cluster), t ∉ cs.map Prod.fst → addRun r t cs = cs
  | [], _ => rfl
  | e :: cs, ht => by
    rw [addRun]
    split
    · rename_i he
      exact absurd (List.mem_map.mpr ⟨e, List.mem_cons_self e cs, he⟩) ht
    · have ht2 : t ∉ cs.map Prod.fst := fun hc =>
        ht (by rw [List.map_cons]; exact List.mem_cons_of_mem _ hc)
      rw [addRun_of_not_mem r t cs ht2]

theorem runsFlat_addRun (r : Int) (t : String) :
    ∀ cs : List (String × Cluster), t ∈ cs.map Prod.fst →
      (runsFlat (addRun r t cs)).Perm (r :: runsFlat cs)
  | [], ht => absurd ht (by simp)
  | e :: cs, ht => by
    rw [addRun]
    split
    · rw [runsFlat_cons, runsFlat_cons]
      refine (List.Perm.append (List.perm_insertionSort _ _) (List.Perm.refl _)).trans ?_
      rw [List.append_assoc, List.singleton_append]
      exact List.perm_middle
    · rename_i he
      have ht2 : t ∈ cs.map Prod.fst := by
        rcases List.mem_map.mp ht with ⟨e2, he2, hfst⟩
        rcases List.mem_cons.mp he2 with h1 | h1
        · exact absurd (h1 ▸ hfst) he
        · exact List.mem_map.mpr ⟨e2, h1, hfst⟩
      rw [runsFlat_cons, runsFlat_cons]
      refine (List.Perm.append (List.Perm.refl _) (runsFlat_addRun r t cs ht2)).trans ?_
      exact List.perm_middle

theorem not_mem_runsFlat_removeRun (r : Int) (cs : List (String × Cluster))
    (h : (runsFlat cs).Nodup) : r ∉ runsFlat (removeRun r cs) := by
  rw [runsFlat_removeRun]
  intro hc
  exact ((List.Nodup.mem_erase_iff h).mp hc).1 rfl

theorem nodup_overrideStep (r : Int) (t : String) (cs : List (String × Cluster))
    (h : (runsFlat cs).Nodup) : (runsFlat (addRun r t (removeRun r cs))).Nodup := by
  have hrem : (runsFlat (removeRun r cs)).Nodup := by
    rw [runsFlat_removeRun]
    exact h.erase r
  by_cases ht : t ∈ (removeRun r cs).map Prod.fst
  · refine (runsFlat_addRun r t (removeRun r cs) ht).nodup_iff.mpr ?_
    exact List.nodup_cons.mpr ⟨not_mem_runsFlat_removeRun r cs h, hrem⟩
  · rw [addRun_of_not_mem r t _ ht]
    exact hrem

theorem nodup_foldOverrides (ov : List (Int × String)) (cs : List (String × Cluster))
    (h : (runsFlat cs).Nodup) :
    (runsFlat (ov.foldl (fun acc p => addRun p.1 p.2 (removeRun p.1 acc)) cs)).Nodup :=
  foldl_preserve (fun acc => (runsFlat acc).Nodup) (fun _ => True) ov cs h
    (fun _ _ => trivial) (fun a b ha _ => nodup_overrideStep b.1 b.2 a ha)

theorem runsFlat_filter_sublist (p : String × Cluster → Bool) :
    ∀ cs : List (String × Cluster), (runsFlat (cs.filter p)).Sublist (runsFlat cs)
  | [] => List.Sublist.refl _
  | e :: cs => by
    rw [List.filter_cons]
    split
    · rw [runsFlat_cons, runsFlat_cons]
      exact (runsFlat_filter_sublist p cs).append_left _
    · rw [runsFlat_cons]
      exact (runsFlat_filter_sublist p cs).trans (List.sublist_append_right _ _)

theorem nodup_applyOverrides (cs : List (String × Cluster)) (ov : List (Int × String))
    (h : (runsFlat cs).Nodup) : (runsFlat (applyOverrides cs ov)).Nodup := by
  unfold applyOverrides
  exact (runsFlat_filter_sublist _ _).nodup (nodup_foldOverrides ov cs h)

/-! Label preservation: only labels change -/

theorem preserveLabels_cons (e : String × Cluster) (nc sc : List (String × Cluster)) :
    ∃ lab, preserveLabels (e :: nc) sc
      = (e.1, { e.2 with label := lab }) :: preserveLabels nc sc := by
  unfold preserveLabels
  rw [List.map_cons]
  rcases hbs : bestSaved e.2.run_numbers sc (none, 0) with ⟨o, bo⟩
  rcases o with _ | bm
  · exact ⟨e.2.label, rfl⟩
  · dsimp only
    split
    · exact ⟨bm.label, rfl⟩
    · exact ⟨e.2.label, rfl⟩

theorem runsFlat_preserveLabels : ∀ (nc sc : List (String × Cluster)),
    runsFlat (preserveLabels nc sc) = runsFlat nc
  | [], _ => rfl
  | e :: nc, sc => by
    obtain ⟨lab, hl⟩ := preserveLabels_cons e nc sc
    rw [hl, runsFlat_cons, runsFlat_cons, runsFlat_preserveLabels nc sc]

theorem mem_preserveLabels : ∀ (nc sc : List (String × Cluster)) (e2 : String × Cluster),
    e2 ∈ preserveLabels nc sc →
      ∃ e ∈ nc, e2.1 = e.1 ∧ e2.2.run_numbers = e.2.run_numbers
  | [], _, e2, h => absurd h (List.not_mem_nil e2)
  | e :: nc, sc, e2, h => by
    obtain ⟨lab, hl⟩ := preserveLabels_cons e nc sc
    rw [hl] at h
    rcases List.mem_cons.mp h with h1 | h1
    · exact ⟨e, List.mem_cons_self e nc, by rw [h1], by rw [h1]⟩
    · obtain ⟨e3, he3, h2, h3⟩ := mem_preserveLabels nc sc e2 h1
      exact ⟨e3, List.mem_cons_of_mem e he3, h2, h3⟩

theorem preserveLabels_mem_of : ∀ (nc sc : List (String × Cluster)) (e : String × Cluster),
    e ∈ nc → ∃ e2 ∈ preserveLabels nc sc, e2.1 = e.1 ∧ e2.2.run_numbers = e.2.run_numbers
  | [], _, e, h => absurd h (List.not_mem_nil e)
  | e0 :: nc, sc, e, h => by
    obtain ⟨lab, hl⟩ := preserveLabels_cons e0 nc sc
    rw [hl]
    rcases List.mem_cons.mp h with h1 | h1
    · exact ⟨(e0.1, { e0.2 with label := lab }), List.mem_cons_self _ _, by rw [h1], by rw [h1]⟩
    · obtain ⟨e2, he2, h2, h3⟩ := preserveLabels_mem_of nc sc e h1
      exact ⟨e2, List.mem_cons_of_mem _ he2, h2, h3⟩

theorem Refines.refl (s : CState β) : Refines s s :=
  fun i hi hai => ⟨i, hi, hai, fun _ hr => hr⟩

theorem Refines.trans {s1 s2 s3 : CState β} (h1 : Refines s1 s2) (h2 : Refines s2 s3) :
    Refines s1 s3 := by
  intro i hi hai
  obtain ⟨j, hj, haj, hsub⟩ := h1 i hi hai
  obtain ⟨k, hk, hak, hsub2⟩ := h2 j hj haj
  exact ⟨k, hk, hak, fun r hr => hsub2 r (hsub r hr)⟩

theorem refines_stepMerge (simF : List β → List β → β) (we : List (Montage β))
    (st : CState β) (i j : Nat) (hwf : WF st) (hij : i < j) (hjn : j < st.clusters.length)
    (hai : st.active.getD i false = true) :
    Refines st (stepMerge simF we st i j) := by
  have hin : i < st.clusters.length := lt_trans hij hjn
  have hijne : i ≠ j := Nat.ne_of_lt hij
  intro k hk hak
  rw [← stepMerge_clusters_length simF we st i j] at hin hjn hk
  by_cases hkj : k = j
  · subst hkj
    refine ⟨i, hin, ?_, ?_⟩
    · rw [stepMerge_active, getD_set_ne _ _ _ (Ne.symm hijne)]
      exact hai
    · intro r hr
      rw [stepMerge_clusters, getD_set_self _ _ _ _
        (by rw [stepMerge_clusters_length] at hin; exact hin)]
      exact List.mem_append_right _ hr
  · by_cases hki : k = i
    · subst hki
      refine ⟨k, hk, ?_, ?_⟩
      · rw [stepMerge_active, getD_set_ne _ _ _ (Ne.symm hijne)]
        exact hak
      · intro r hr
        rw [stepMerge_clusters, getD_set_self _ _ _ _
          (by rw [stepMerge_clusters_length] at hk; exact hk)]
        exact List.mem_append_left _ hr
    · refine ⟨k, hk, ?_, ?_⟩
      · rw [stepMerge_active, getD_set_ne _ _ _ (fun h => hkj h.symm)]
        exact hak
      · intro r hr
        rw [stepMerge_clusters, getD_set_ne _ _ _ (fun h => hki h.symm)]
        exact hr

theorem refines_mergeLoop (simF : List β → List β → β) (we : List (Montage β)) (t : β) :
    ∀ (fuel : Nat) (st : CState β), WF st → Refines st (mergeLoop simF we t fuel st)
  | 0, st, _ => Refines.refl st
  | Nat.succ fuel, st, hwf => by
    rw [mergeLoop]
    rcases hfb : findBest st with ⟨s, o⟩
    rcases o with _ | ij
    · exact Refines.refl st
    · dsimp only
      split
      · exact Refines.refl st
      · have hv := findBest_valid st
        rw [hfb] at hv
        rcases hv with hnone | ⟨i2, j2, hsome, hij, hjn, hai, haj⟩
        · exact absurd hnone (by simp)
        · have hpair : ij = (i2, j2) := by simpa using hsome
          subst hpair
          exact (refines_stepMerge simF we st i2 j2 hwf hij hjn hai).trans
            (refines_mergeLoop simF we t fuel _ (stepMerge_WF simF we st i2 j2 hwf))

theorem mergeLoop_mono (simF : List β → List β → β) (we : List (Montage β))
    {t1 t2 : β} (hle : t1 ≤ t2) :
    ∀ (fuel : Nat) (st : CState β), WF st →
      Refines (mergeLoop simF we t2 fuel st) (mergeLoop simF we t1 fuel st)
  | 0, st, _ => Refines.refl st
  | Nat.succ fuel, st, hwf => by
    rw [mergeLoop, mergeLoop]
    rcases hfb : findBest st with ⟨s, o⟩
    rcases o with _ | ij
    · exact Refines.refl st
    · dsimp only
      have hv := findBest_valid st
      rw [hfb] at hv
      rcases hv with hnone | ⟨i2, j2, hsome, hij, hjn, hai, haj⟩
      · exact absurd hnone (by simp)
      · have hpair : ij = (i2, j2) := by simpa using hsome
        subst hpair
        by_cases h2 : s < t2
        · rw [if_pos h2]
          by_cases h1 : s < t1
          · rw [if_pos h1]
            exact Refines.refl st
          · rw [if_neg h1]
            exact (refines_stepMerge simF we st i2 j2 hwf hij hjn hai).trans
              (refines_mergeLoop simF we t1 fuel _ (stepMerge_WF simF we st i2 j2 hwf))
        · rw [if_neg h2, if_neg (fun h1 => h2 (lt_of_lt_of_le h1 hle))]
          exact mergeLoop_mono simF we hle fuel _ (stepMerge_WF simF we st i2 j2 hwf)

theorem two_le_countActive_of_some (st : CState β) {s : β} {ij : Nat × Nat}
    (hfb : findBest st = (s, some ij)) : 2 ≤ countActive st := by
  have hv := findBest_valid st
  rw [hfb] at hv
  rcases hv with hnone | ⟨i2, j2, hsome, hij, hjn, hai, haj⟩
  · exact absurd hnone (by simp)
  · have hsub : ({i2, j2} : Finset Nat) ⊆
        (Finset.range st.clusters.length).filter (fun k => st.active.getD k false = true) := by
      intro x hx
      rcases Finset.mem_insert.mp hx with h | h
      · subst h
        exact Finset.mem_filter.mpr ⟨Finset.mem_range.mpr (lt_trans hij hjn), hai⟩
      · rw [Finset.mem_singleton.mp h]
        exact Finset.mem_filter.mpr ⟨Finset.mem_range.mpr hjn, haj⟩
    have hcard : ({i2, j2} : Finset Nat).card = 2 :=
      Finset.card_insert_of_not_mem (by simpa using Nat.ne_of_lt hij)
    calc 2 = ({i2, j2} : Finset Nat).card := hcard.symm
    _ ≤ _ := Finset.card_le_card hsub

theorem countActive_stepMerge (simF : List β → List β → β) (we : List (Montage β))
    (st : CState β) (i j : Nat) (hwf : WF st) (hij : i ≠ j) (hjn : j < st.clusters.length)
    (haj : st.active.getD j false = true) :
    countActive (stepMerge simF we st i j) = countActive st - 1 := by
  unfold countActive
  rw [stepMerge_clusters_length, stepMerge_active]
  have hiff : ∀ k ∈ Finset.range st.clusters.length,
      ((st.active.set j false).getD k false = true)
        ↔ (st.active.getD k false = true ∧ k ≠ j) := by
    intro k _
    by_cases hkj : k = j
    · subst hkj
      rw [getD_set_self _ _ _ _ (by rw [hwf]; exact hjn)]
      simp
    · rw [getD_set_ne _ _ _ (fun h => hkj h.symm)]
      simp [hkj]
  rw [Finset.filter_congr hiff, ← Finset.filter_filter, Finset.filter_ne']
  exact Finset.card_erase_of_mem
    (Finset.mem_filter.mpr ⟨Finset.mem_range.mpr hjn, haj⟩)

theorem mergeLoop_of_none (simF : List β → List β → β) (we : List (Montage β)) (t : β)
    {st : CState β} {s : β} (hfb : findBest st = (s, none)) :
    ∀ fuel, mergeLoop simF we t fuel st = st
  | 0 => rfl
  | Nat.succ fuel => by
    rw [mergeLoop, hfb]

theorem mergeLoop_stable (simF : List β → List β → β) (we : List (Montage β)) (t : β) :
    ∀ (fuel : Nat) (st : CState β), WF st → countActive st ≤ fuel + 1 →
      ∀ k, mergeLoop simF we t (fuel + k) st = mergeLoop simF we t fuel st
  | 0, st, _, hcard, k => by
    rcases hfb : findBest st with ⟨s, o⟩
    rcases o with _ | ij
    · rw [mergeLoop_of_none simF we t hfb, mergeLoop_of_none simF we t hfb]
    · have := two_le_countActive_of_some st hfb
      omega
  | Nat.succ fuel, st, hwf, hcard, k => by
    have hfe : Nat.succ fuel + k = (fuel + k) + 1 := by omega
    rw [hfe, mergeLoop, mergeLoop]
    rcases hfb : findBest st with ⟨s, o⟩
    rcases o with _ | ij
    · rfl
    · dsimp only
      split
      · rfl
      · have hv := findBest_valid st
        rw [hfb] at hv
        rcases hv with hnone | ⟨i2, j2, hsome, hij, hjn, hai, haj⟩
        · exact absurd hnone (by simp)
        · have hpair : ij = (i2, j2) := by simpa using hsome
          subst hpair
          have hstep := countActive_stepMerge simF we st i2 j2 hwf (Nat.ne_of_lt hij) hjn haj
          exact mergeLoop_stable simF we t fuel _ (stepMerge_WF simF we st i2 j2 hwf)
            (by omega) k

theorem countActive_initState (simF : List β → List β → β) (we : List (Montage β)) :
    countActive (initState simF we) = we.length := by
  unfold countActive
  rw [initState_clusters_length]
  have hiff : ∀ k ∈ Finset.range we.length,
      ((initState simF we).active.getD k false = true) ↔ True := by
    intro k hk
    simp only [iff_true]
    show (List.replicate we.length true).getD k false = true
    rw [getD_replicate _ _ (Finset.mem_range.mp hk)]
  rw [Finset.filter_congr hiff]
  simp

/-! Override persistence: tracking one overridden run -/

theorem mem_runsFlat {r : Int} {cs : List (String × Cluster)} :
    r ∈ runsFlat cs ↔ ∃ e ∈ cs, r ∈ e.2.run_numbers := by
  unfold runsFlat
  exact List.mem_flatMap

theorem removeRun_keeps (r r2 : Int) (hne : r ≠ r2) :
    ∀ (cs : List (String × Cluster)) (e : String × Cluster), e ∈ cs → r ∈ e.2.run_numbers →
      ∃ e2 ∈ removeRun r2 cs, e2.1 = e.1 ∧ r ∈ e2.2.run_numbers
  | [], e, he, _ => absurd he (List.not_mem_nil e)
  | e0 :: cs, e, he, hr => by
    rw [removeRun]
    split
    · rcases List.mem_cons.mp he with h1 | h1
      · exact ⟨(e0.1, { e0.2 with run_numbers := e0.2.run_numbers.erase r2 }),
          List.mem_cons_self _ _, by rw [h1],
          List.mem_erase_of_ne hne |>.mpr (h1 ▸ hr)⟩
      · exact ⟨e, List.mem_cons_of_mem _ h1, rfl, hr⟩
    · rcases List.mem_cons.mp he with h1 | h1
      · exact ⟨e0, List.mem_cons_self _ _, by rw [h1], h1 ▸ hr⟩
      · obtain ⟨e2, he2, hid, hr2⟩ := removeRun_keeps r r2 hne cs e h1 hr
        exact ⟨e2, List.mem_cons_of_mem _ he2, hid, hr2⟩

theorem mem_removeRun (r2 : Int) :
    ∀ (cs : List (String × Cluster)) (e2 : String × Cluster), e2 ∈ removeRun r2 cs →
      ∃ e ∈ cs, e2.1 = e.1 ∧ ∀ r, r ∈ e2.2.run_numbers → r ∈ e.2.run_numbers
  | [], e2, h => absurd h (List.not_mem_nil e2)
  | e0 :: cs, e2, h => by
    rw [removeRun] at h
    split at h
    · rcases List.mem_cons.mp h with h1 | h1
      · exact ⟨e0, List.mem_cons_self _ _, by rw [h1],
          fun r hr => List.mem_of_mem_erase (by rw [h1] at hr; exact hr)⟩
      · exact ⟨e2, List.mem_cons_of_mem _ h1, rfl, fun _ hr => hr⟩
    · rcases List.mem_cons.mp h with h1 | h1
      · exact ⟨e0, List.mem_cons_self _ _, by rw [h1], fun r hr => by rw [h1] at hr; exact hr⟩
      · obtain ⟨e, he, hid, hsub⟩ := mem_removeRun r2 cs e2 h1
        exact ⟨e, List.mem_cons_of_mem _ he, hid, hsub⟩

theorem addRun_keeps (r r2 : Int) (t : String) :
    ∀ (cs : List (String × Cluster)) (e : String × Cluster), e ∈ cs → r ∈ e.2.run_numbers →
      ∃ e2 ∈ addRun r2 t cs, e2.1 = e.1 ∧ r ∈ e2.2.run_numbers
  | [], e, he, _ => absurd he (List.not_mem_nil e)
  | e0 :: cs, e, he, hr => by
    rw [addRun]
    split
    · rcases List.mem_cons.mp he with h1 | h1
      · refine ⟨(e0.1, { e0.2 with run_numbers := List.insertionSort (fun a b => a ≤ b) (e0.2.run_numbers ++ [r2]) }), List.mem_cons_self _ _, by rw [h1], ?_⟩
        exact (List.perm_insertionSort _ _).mem_iff.mpr
          (List.mem_append_left _ (h1 ▸ hr))
      · exact ⟨e, List.mem_cons_of_mem _ h1, rfl, hr⟩
    · rcases List.mem_cons.mp he with h1 | h1
      · exact ⟨e0, List.mem_cons_self _ _, by rw [h1], h1 ▸ hr⟩
      · obtain ⟨e2, he2, hid, hr2⟩ := addRun_keeps r r2 t cs e h1 hr
        exact ⟨e2, List.mem_cons_of_mem _ he2, hid, hr2⟩

theorem mem_addRun (r2 : Int) (t : String) :
    ∀ (cs : List (String × Cluster)) (e2 : String × Cluster), e2 ∈ addRun r2 t cs →
      ∃ e ∈ cs, e2.1 = e.1 ∧ ∀ r, r ∈ e2.2.run_numbers → r ∈ e.2.run_numbers ∨ r = r2
  | [], e2, h => absurd h (List.not_mem_nil e2)
  | e0 :: cs, e2, h => by
    rw [addRun] at h
    split at h
    · rcases List.mem_cons.mp h with h1 | h1
      · refine ⟨e0, List.mem_cons_self _ _, by rw [h1], ?_⟩
        intro r hr
        rw [h1] at hr
        have := (List.perm_insertionSort (fun a b => a ≤ b) (e0.2.run_numbers ++ [r2])).mem_iff.mp hr
        rcases List.mem_append.mp this with h2 | h2
        · exact Or.inl h2
        · exact Or.inr (List.mem_singleton.mp h2)
      · exact ⟨e2, List.mem_cons_of_mem _ h1, rfl, fun r hr => Or.inl hr⟩
    · rcases List.mem_cons.mp h with h1 | h1
      · exact ⟨e0, List.mem_cons_self _ _, by rw [h1],
          fun r hr => Or.inl (by rw [h1] at hr; exact hr)⟩
      · obtain ⟨e, he, hid, hsub⟩ := mem_addRun r2 t cs e2 h1
        exact ⟨e, List.mem_cons_of_mem _ he, hid, hsub⟩

theorem onlyIn_addRun (r : Int) (B : String) :
    ∀ cs : List (String × Cluster), B ∈ cs.map Prod.fst → r ∉ runsFlat cs →
      OnlyIn r B (addRun r B cs)
  | [], hB, _ => absurd hB (by simp)
  | e0 :: cs, hB, hr => by
    have hr0 : r ∉ e0.2.run_numbers := fun hc =>
      hr (by rw [runsFlat_cons]; exact List.mem_append_left _ hc)
    have hrcs : r ∉ runsFlat cs := fun hc =>
      hr (by rw [runsFlat_cons]; exact List.mem_append_right _ hc)
    rw [addRun]
    split
    · rename_i he
      constructor
      · refine ⟨(e0.1, { e0.2 with run_numbers := List.insertionSort (fun a b => a ≤ b) (e0.2.run_numbers ++ [r]) }), List.mem_cons_self _ _, he, ?_⟩
        exact (List.perm_insertionSort _ _).mem_iff.mpr
          (List.mem_append_right _ (List.mem_singleton_self r))
      · intro e2 he2 hre2
        rcases List.mem_cons.mp he2 with h1 | h1
        · rw [h1]
          exact he
        · exact absurd (mem_runsFlat.mpr ⟨e2, h1, hre2⟩) hrcs
    · rename_i he
      have hB2 : B ∈ cs.map Prod.fst := by
        rcases List.mem_map.mp hB with ⟨e2, he2, hfst⟩
        rcases List.mem_cons.mp he2 with h1 | h1
        · exact absurd (h1 ▸ hfst) he
        · exact List.mem_map.mpr ⟨e2, h1, hfst⟩
      obtain ⟨⟨e2, he2, hid, hr2⟩, huniq⟩ := onlyIn_addRun r B cs hB2 hrcs
      constructor
      · exact ⟨e2, List.mem_cons_of_mem _ he2, hid, hr2⟩
      · intro e3 he3 hre3
        rcases List.mem_cons.mp he3 with h1 | h1
        · exact absurd (h1 ▸ hre3) hr0
        · exact huniq e3 h1 hre3

theorem onlyIn_after_step (r : Int) (B : String) (cs : List (String × Cluster))
    (hnd : (runsFlat cs).Nodup) (hB : B ∈ cs.map Prod.fst) :
    OnlyIn r B (addRun r B (removeRun r cs)) :=
  onlyIn_addRun r B (removeRun r cs) (by rw [removeRun_ids]; exact hB)
    (not_mem_runsFlat_removeRun r cs hnd)

theorem onlyIn_step_preserve (r : Int) (B : String) (r2 : Int) (t : String) (hne : r2 ≠ r)
    (cs : List (String × Cluster)) (h : OnlyIn r B cs) :
    OnlyIn r B (addRun r2 t (removeRun r2 cs)) := by
  obtain ⟨⟨e, he, heB, her⟩, huniq⟩ := h
  constructor
  · obtain ⟨e1, he1, hid1, hr1⟩ := removeRun_keeps r r2 (fun hc => hne hc.symm) cs e he her
    obtain ⟨e2, he2, hid2, hr2⟩ := addRun_keeps r r2 t _ e1 he1 hr1
    exact ⟨e2, he2, by rw [hid2, hid1, heB], hr2⟩
  · intro e2 he2 hre2
    obtain ⟨e1, he1, hid1, hsub1⟩ := mem_addRun r2 t _ e2 he2
    rcases hsub1 r hre2 with hr1 | hr1
    · obtain ⟨e0, he0, hid0, hsub0⟩ := mem_removeRun r2 cs e1 he1
      rw [hid1, hid0]
      exact huniq e0 he0 (hsub0 r hr1)
    · exact absurd hr1.symm hne

theorem onlyIn_foldOverrides (r : Int) (B : String) :
    ∀ (post : List (Int × String)) (cs : List (String × Cluster)),
      OnlyIn r B cs → r ∉ post.map Prod.fst →
      OnlyIn r B (post.foldl (fun acc p => addRun p.1 p.2 (removeRun p.1 acc)) cs)
  | [], _, h, _ => h
  | p :: post, cs, h, hpost => by
    rw [List.foldl_cons]
    have hp : p.1 ≠ r := fun hc =>
      hpost (by rw [List.map_cons, hc]; exact List.mem_cons_self _ _)
    have hpost2 : r ∉ post.map Prod.fst := fun hc =>
      hpost (by rw [List.map_cons]; exact List.mem_cons_of_mem _ hc)
    exact onlyIn_foldOverrides r B post _ (onlyIn_step_preserve r B p.1 p.2 hp cs h) hpost2

theorem foldOverrides_ids :
    ∀ (ov : List (Int × String)) (cs : List (String × Cluster)),
      ((ov.foldl (fun acc p => addRun p.1 p.2 (removeRun p.1 acc)) cs).map Prod.fst)
        = cs.map Prod.fst
  | [], _ => rfl
  | p :: ov, cs => by
    rw [List.foldl_cons, foldOverrides_ids ov, addRun_ids, removeRun_ids]

theorem applyOverrides_onlyIn (cs : List (String × Cluster)) (ov : List (Int × String))
    (r : Int) (B : String) (hnd : (runsFlat cs).Nodup) (hkeys : (ov.map Prod.fst).Nodup)
    (hmem : (r, B) ∈ ov) (hB : B ∈ cs.map Prod.fst) :
    (∃ e ∈ applyOverrides cs ov, e.1 = B ∧ r ∈ e.2.run_numbers) ∧
      ∀ e ∈ applyOverrides cs ov, r ∈ e.2.run_numbers → e.1 = B := by
  obtain ⟨pre, post, rfl⟩ := List.append_of_mem hmem
  unfold applyOverrides
  rw [List.foldl_append, List.foldl_cons]
  have hnd1 : (runsFlat (pre.foldl (fun acc p => addRun p.1 p.2 (removeRun p.1 acc)) cs)).Nodup :=
    nodup_foldOverrides pre cs hnd
  have hB1 : B ∈ (pre.foldl (fun acc p => addRun p.1 p.2 (removeRun p.1 acc)) cs).map Prod.fst := by
    rw [foldOverrides_ids]
    exact hB
  have honly := onlyIn_after_step r B _ hnd1 hB1
  have hrpost : r ∉ post.map Prod.fst := by
    rw [List.map_append, List.map_cons] at hkeys
    have := hkeys.of_append_right
    exact (List.nodup_cons.mp this).1
  have hfold := onlyIn_foldOverrides r B post _ honly hrpost
  constructor
  · obtain ⟨e, he, heB, her⟩ := hfold.1
    refine ⟨e, List.mem_filter.mpr ⟨he, ?_⟩, heB, her⟩
    rcases hcase : e.2.run_numbers with _ | ⟨a, l⟩
    · rw [hcase] at her
      exact absurd her (List.not_mem_nil r)
    · rfl
  · intro e he hre
    exact hfold.2 e (List.mem_filter.mp he).1 hre

/-! Unfolding the phases of cluster -/

theorem foldOverrides_nil :
    ∀ ov : List (Int × String),
      ov.foldl (fun acc p => addRun p.1 p.2 (removeRun p.1 acc)) [] = []
  | [] => rfl
  | p :: ov => by
    rw [List.foldl_cons]
    exact foldOverrides_nil ov

theorem applyOverrides_nil (ov : List (Int × String)) : applyOverrides [] ov = [] := by
  unfold applyOverrides
  rw [foldOverrides_nil]
  rfl

theorem clusterW_empty (simF : List β → List β → β) (m : List (Montage β)) (t : β)
    (s : Option SavedState) (h : (filterDedup m []).length = 0) : clusterW simF m t s = [] := by
  unfold clusterW
  rw [if_pos h]

theorem clusterW_none_eq_buildFrom (simF : List β → List β → β) (m : List (Montage β)) (t : β)
    (h : ¬ (filterDedup m []).length = 0) :
    clusterW simF m t none
      = buildFrom (mergeLoop simF (filterDedup m []) t (filterDedup m []).length
          (initState simF (filterDedup m []))) (List.range (filterDedup m []).length) 1 := by
  unfold clusterW
  rw [if_neg h]

theorem clusterW_some_eq (simF : List β → List β → β) (m : List (Montage β)) (t : β)
    (sv : SavedState) :
    clusterW simF m t (some sv)
      = (match sv.clusters with
         | some saved =>
           preserveLabels
             (match sv.manual_overrides with
              | some ov => applyOverrides (clusterW simF m t none) ov
              | none => clusterW simF m t none) saved
         | none =>
           match sv.manual_overrides with
           | some ov => applyOverrides (clusterW simF m t none) ov
           | none => clusterW simF m t none) := by
  by_cases h : (filterDedup m []).length = 0
  · rw [clusterW_empty simF m t (some sv) h, clusterW_empty simF m t none h]
    rcases sv.clusters with _ | saved <;> rcases sv.manual_overrides with _ | ov <;>
      simp [applyOverrides_nil, preserveLabels]
  · rw [clusterW_none_eq_buildFrom simF m t h]
    unfold clusterW
    rw [if_neg h]

/-! Active clusters are never empty -/

theorem headD_mem {α : Type _} {l : List α} (h : l ≠ []) (d : α) : l.headD d ∈ l := by
  cases l with
  | nil => exact absurd rfl h
  | cons a l => exact List.mem_cons_self a l

theorem runsNonempty_initState (simF : List β → List β → β) (we : List (Montage β)) :
    RunsNonempty (initState simF we) := by
  intro i hi _
  rw [initState_clusters_length] at hi
  show ((initClusters we).getD i emptyEntry).runs ≠ []
  unfold initClusters
  rw [getD_map_lt _ we hi ⟨0, none⟩]
  simp

theorem runsNonempty_stepMerge (simF : List β → List β → β) (we : List (Montage β))
    (st : CState β) (i j : Nat) (hwf : WF st) (hne : RunsNonempty st) (hij : i < j)
    (hjn : j < st.clusters.length) (hai : st.active.getD i false = true) :
    RunsNonempty (stepMerge simF we st i j) := by
  have hin : i < st.clusters.length := lt_trans hij hjn
  intro k hk hak
  rw [stepMerge_clusters_length] at hk
  by_cases hki : k = i
  · subst hki
    rw [stepMerge_clusters, getD_set_self _ _ _ _ hin]
    have := hne k hk hai
    intro hc
    rw [List.append_eq_nil] at hc
    exact this hc.1
  · rw [stepMerge_clusters, getD_set_ne _ _ _ (fun hc => hki hc.symm)]
    by_cases hkj : k = j
    · subst hkj
      rw [stepMerge_active, getD_set_self _ _ _ _ (by rw [hwf]; exact hjn)] at hak
      exact absurd hak (by simp)
    · rw [stepMerge_active, getD_set_ne _ _ _ (fun hc => hkj hc.symm)] at hak
      exact hne k hk hak

theorem runsNonempty_mergeLoop (simF : List β → List β → β) (we : List (Montage β)) (t : β) :
    ∀ (fuel : Nat) (st : CState β), WF st → RunsNonempty st →
      RunsNonempty (mergeLoop simF we t fuel st)
  | 0, _, _, hne => hne
  | Nat.succ fuel, st, hwf, hne => by
    rw [mergeLoop]
    rcases hfb : findBest st with ⟨s, o⟩
    rcases o with _ | ij
    · exact hne
    · dsimp only
      split
      · exact hne
      · have hv := findBest_valid st
        rw [hfb] at hv
        rcases hv with hnone | ⟨i2, j2, hsome, hij, hjn, hai, haj⟩
        · exact absurd hnone (by simp)
        · have hpair : ij = (i2, j2) := by simpa using hsome
          subst hpair
          exact runsNonempty_mergeLoop simF we t fuel _
            (stepMerge_WF simF we st i2 j2 hwf)
            (runsNonempty_stepMerge simF we st i2 j2 hwf hne hij hjn hai)

theorem clusterW_none_entries (simF : List β → List β → β) (m : List (Montage β)) (t : β) :
    ∀ e ∈ clusterW simF m t none,
      e.2.representative_run ∈ e.2.run_numbers ∧
        List.Sorted (fun a b : Int => a ≤ b) e.2.run_numbers := by
  intro e he
  by_cases h : (filterDedup m []).length = 0
  · rw [clusterW_empty simF m t none h] at he
    exact absurd he (List.not_mem_nil e)
  · rw [clusterW_none_eq_buildFrom simF m t h] at he
    obtain ⟨k, hkmem, hak, hrep, hrn⟩ := mem_buildFrom _ _ _ e he
    have hklt : k < (mergeLoop simF (filterDedup m []) t (filterDedup m []).length
        (initState simF (filterDedup m []))).clusters.length := by
      rw [mergeLoop_clusters_length, initState_clusters_length]
      exact List.mem_range.mp hkmem
    have hne := runsNonempty_mergeLoop simF (filterDedup m []) t (filterDedup m []).length
      (initState simF (filterDedup m [])) (initState_WF simF _)
      (runsNonempty_initState simF _) k hklt hak
    constructor
    · rw [hrep, hrn]
      exact (List.perm_insertionSort _ _).mem_iff.mpr (headD_mem hne 0)
    · rw [hrn]
      exact List.sorted_insertionSort _ _

theorem foldMaxOv_le (nrs : List Int) :
    ∀ (k : Nat) (l : List (String × Cluster)), k ≤ foldMaxOv nrs k l
  | _, [] => Nat.le_refl _
  | k, sc :: l =>
    Nat.le_trans (Nat.le_max_left k (overlap nrs sc.2.run_numbers)) (foldMaxOv_le nrs _ l)

theorem mem_le_foldMaxOv (nrs : List Int) :
    ∀ (l : List (String × Cluster)) (k : Nat) (s : String × Cluster), s ∈ l →
      overlap nrs s.2.run_numbers ≤ foldMaxOv nrs k l
  | [], _, s, hs => absurd hs (List.not_mem_nil s)
  | sc :: l, k, s, hs => by
    rcases List.mem_cons.mp hs with h | h
    · subst h
      exact Nat.le_trans (Nat.le_max_right k (overlap nrs s.2.run_numbers))
        (foldMaxOv_le nrs _ l)
    · exact mem_le_foldMaxOv nrs l _ s h

theorem bestSaved_eq (nrs : List Int) :
    ∀ (l : List (String × Cluster)) (m : Option Cluster) (k : Nat),
      bestSaved nrs l (m, k)
        = (if foldMaxOv nrs k l = k then m
           else Option.map Prod.snd
             (l.find? (fun sc => overlap nrs sc.2.run_numbers == foldMaxOv nrs k l)),
           foldMaxOv nrs k l)
  | [], m, k => by
    rw [bestSaved]
    simp [foldMaxOv]
  | sc :: l, m, k => by
    have hfm : foldMaxOv nrs k (sc :: l)
        = foldMaxOv nrs (max k (overlap nrs sc.2.run_numbers)) l := rfl
    rw [bestSaved]
    by_cases hsc : k < overlap nrs sc.2.run_numbers
    · rw [if_pos hsc, bestSaved_eq nrs l (some sc.2) (overlap nrs sc.2.run_numbers), hfm,
        max_eq_right (le_of_lt hsc)]
      by_cases h2 : foldMaxOv nrs (overlap nrs sc.2.run_numbers) l
          = overlap nrs sc.2.run_numbers
      · rw [if_pos h2, h2, if_neg (by omega), List.find?_cons_of_pos _ (by simp)]
        rfl
      · have hlt : overlap nrs sc.2.run_numbers
            < foldMaxOv nrs (overlap nrs sc.2.run_numbers) l :=
          lt_of_le_of_ne (foldMaxOv_le nrs _ l) (fun hc => h2 hc.symm)
        rw [if_neg h2, if_neg (by omega),
          List.find?_cons_of_neg _ (by simp only [beq_iff_eq]; omega)]
    · rw [if_neg hsc, bestSaved_eq nrs l m k, hfm, max_eq_left (not_lt.mp hsc)]
      by_cases h2 : foldMaxOv nrs k l = k
      · rw [if_pos h2, if_pos h2]
      · have hlt : k < foldMaxOv nrs k l :=
          lt_of_le_of_ne (foldMaxOv_le nrs k l) (fun hc => h2 hc.symm)
        have hsc2 : overlap nrs sc.2.run_numbers ≤ k := not_lt.mp hsc
        rw [if_neg h2, if_neg h2,
          List.find?_cons_of_neg _ (by simp only [beq_iff_eq]; omega)]

theorem preserveLabels_eq (nc sc : List (String × Cluster)) :
    preserveLabels nc sc = nc.map (fun e =>
      match sc.find? (fun s => overlap e.2.run_numbers s.2.run_numbers
          == maxOverlap e.2.run_numbers sc) with
      | some s =>
        if 0 < maxOverlap e.2.run_numbers sc ∧ isDefaultLabel s.2.label = false
        then (e.1, { e.2 with label := s.2.label }) else e
      | none => e) := by
  unfold preserveLabels
  refine List.map_congr_left ?_
  intro e _
  dsimp only
  rw [bestSaved_eq e.2.run_numbers sc none 0]
  have hMeq : maxOverlap e.2.run_numbers sc = foldMaxOv e.2.run_numbers 0 sc := rfl
  by_cases hM : foldMaxOv e.2.run_numbers 0 sc = 0
  · rw [if_pos hM]
    rcases hf : sc.find? (fun s => overlap e.2.run_numbers s.2.run_numbers
        == maxOverlap e.2.run_numbers sc) with _ | s
    · rw [hf]
    · rw [hf]
      dsimp only
      rw [if_neg]
      intro hc
      rw [hMeq, hM] at hc
      exact absurd hc.1 (by omega)
  · rw [if_neg hM, ← hMeq]
    rcases hf : sc.find? (fun s => overlap e.2.run_numbers s.2.run_numbers
        == maxOverlap e.2.run_numbers sc) with _ | s
    · rw [hf]
      rfl
    · rw [hf]
      rfl

/-! Cosine similarity -/

theorem dotProd_nil_left (y : List β) : dotProd [] y = 0 := by
  simp [dotProd]

theorem dotProd_nil_right (x : List β) : dotProd x [] = 0 := by
  cases x <;> simp [dotProd]

theorem dotProd_cons (a b : β) (x y : List β) :
    dotProd (a :: x) (b :: y) = a * b + dotProd x y := by
  simp [dotProd]

theorem dotProd_comm : ∀ x y : List β, dotProd x y = dotProd y x
  | [], y => by rw [dotProd_nil_left, dotProd_nil_right]
  | _ :: _, [] => by rw [dotProd_nil_left, dotProd_nil_right]
  | a :: xs, b :: ys => by
    rw [dotProd_cons, dotProd_cons, mul_comm a b, dotProd_comm xs ys]

theorem cosineSimilarityL_comm (x y : List ℝ) :
    cosineSimilarityL x y = cosineSimilarityL y x := by
  unfold cosineSimilarityL
  by_cases h : x.length = y.length
  · rw [if_pos h, if_pos h.symm]
    dsimp only
    rw [dotProd_comm, mul_comm (Real.sqrt (sumSq x))]
  · rw [if_neg h, if_neg (fun hc => h hc.symm)]

theorem cosineSimilarity_comm (a b : Option (List ℝ)) :
    cosineSimilarity a b = cosineSimilarity b a :=
  match a, b with
  | none, none => rfl
  | none, some _ => rfl
  | some _, none => rfl
  | some x, some y => cosineSimilarityL_comm x y

theorem cosineSimilarity_none_left (b : Option (List ℝ)) : cosineSimilarity none b = 0 := by
  cases b <;> rfl

theorem cosineSimilarity_none_right (a : Option (List ℝ)) : cosineSimilarity a none = 0 := by
  cases a <;> rfl

theorem cosineSimilarityL_length_ne (x y : List ℝ) (h : x.length ≠ y.length) :
    cosineSimilarityL x y = 0 := by
  unfold cosineSimilarityL
  rw [if_neg h]

theorem cosineSimilarityL_zero_left (x y : List ℝ) (h : sumSq x = 0) :
    cosineSimilarityL x y = 0 := by
  unfold cosineSimilarityL
  split
  · dsimp only
    rw [h, Real.sqrt_zero, zero_mul, if_neg (lt_irrefl 0)]
  · rfl

theorem cosineSimilarityL_zero_right (x y : List ℝ) (h : sumSq y = 0) :
    cosineSimilarityL x y = 0 := by
  unfold cosineSimilarityL
  split
  · dsimp only
    rw [h, Real.sqrt_zero, mul_zero, if_neg (lt_irrefl 0)]
  · rfl

/-! The dedup filter: degenerate embeddings and first-kept records -/

theorem filterDedup_degenerate (mo : Montage β)
    (hdeg : mo.embedding = none ∨ mo.embedding = some []) :
    ∀ (pre post : List (Montage β)) (seen : List Int),
      filterDedup (pre ++ mo :: post) seen = filterDedup (pre ++ post) seen
  | [], post, seen => by
    rw [List.nil_append, List.nil_append, filterDedup]
    rcases hdeg with h | h
    · rw [h]
    · rw [h]
      simp
  | m :: pre, post, seen => by
    rw [List.cons_append, List.cons_append, filterDedup, filterDedup]
    rcases hm : m.embedding with _ | e
    · exact filterDedup_degenerate mo hdeg pre post seen
    · dsimp only
      by_cases hlen : e.length = 0
      · rw [if_pos hlen, if_pos hlen]
        exact filterDedup_degenerate mo hdeg pre post seen
      · rw [if_neg hlen, if_neg hlen]
        by_cases hseen : m.run_number ∈ seen
        · rw [if_pos hseen, if_pos hseen]
          exact filterDedup_degenerate mo hdeg pre post seen
        · rw [if_neg hseen, if_neg hseen,
            filterDedup_degenerate mo hdeg pre post (m.run_number :: seen)]

theorem clusterW_degenerate (simF : List β → List β → β) (mo : Montage β)
    (hdeg : mo.embedding = none ∨ mo.embedding = some [])
    (pre post : List (Montage β)) (t : β) (s : Option SavedState) :
    clusterW simF (pre ++ mo :: post) t s = clusterW simF (pre ++ post) t s := by
  unfold clusterW
  rw [filterDedup_degenerate mo hdeg pre post []]

theorem filterDedup_find? (r : Int) :
    ∀ (ms : List (Montage β)) (seen : List Int),
      ((filterDedup ms seen).find? (fun mo => mo.run_number == r))
        = if r ∈ seen then none
          else ms.find? (fun mo => mo.run_number == r && !(mo.embedding.getD []).isEmpty)
  | [], seen => by
    rw [filterDedup]
    simp
  | mo :: ms, seen => by
    rw [filterDedup]
    rcases hm : mo.embedding with _ | e
    · rw [filterDedup_find? r ms seen, List.find?_cons_of_neg _ (by simp [hm])]
    · dsimp only
      by_cases hlen : e.length = 0
      · have he : e = [] := List.length_eq_zero.mp hlen
        rw [if_pos hlen, filterDedup_find? r ms seen,
          List.find?_cons_of_neg _ (by simp [hm, he])]
      · have hie : e.isEmpty = false := by
          rcases e with _ | ⟨a, es⟩
          · exact absurd rfl hlen
          · rfl
        by_cases hseen : mo.run_number ∈ seen
        · rw [if_neg hlen, if_pos hseen, filterDedup_find? r ms seen]
          by_cases hrseen : r ∈ seen
          · rw [if_pos hrseen, if_pos hrseen]
          · rw [if_neg hrseen, if_neg hrseen, List.find?_cons_of_neg _ ?_]
            have hr : mo.run_number ≠ r := fun hc => hrseen (hc ▸ hseen)
            simp [hr]
        · rw [if_neg hlen, if_neg hseen]
          by_cases hr : mo.run_number = r
          · rw [List.find?_cons_of_pos _ (by simp [hr]), if_neg (hr ▸ hseen),
              List.find?_cons_of_pos _ (by simp [hm, hr, hie])]
          · rw [List.find?_cons_of_neg _ (by simp [hr]),
              filterDedup_find? r ms (mo.run_number :: seen)]
            by_cases hrseen : r ∈ seen
            · rw [if_pos (List.mem_cons_of_mem _ hrseen), if_pos hrseen]
            · rw [if_neg ?_, if_neg hrseen, List.find?_cons_of_neg _ (by simp [hr])]
              intro hc
              rcases List.mem_cons.mp hc with h1 | h1
              · exact hr h1.symm
              · exact hrseen h1

/-! Concrete evaluations used by witnesses and counterexamples -/

theorem cluster_single_eval (r : Int) (t : ℝ) :
    cluster [⟨r, some [1]⟩] t none
      = [("athlete_1", ⟨"Athlete 1", "#2563eb", r, [r]⟩)] := by
  have hfd : filterDedup [(⟨r, some [1]⟩ : Montage ℝ)] [] = [⟨r, some [1]⟩] := by
    simp [filterDedup]
  unfold cluster
  rw [clusterW_none_eq_buildFrom _ _ _ (by rw [hfd]; simp), hfd]
  simp only [List.length_cons, List.length_nil]
  rw [show List.range 1 = [0] from rfl]
  rw [show mergeLoop cosineSimilarityL [(⟨r, some [1]⟩ : Montage ℝ)] t 1
      (initState cosineSimilarityL [⟨r, some [1]⟩])
        = initState cosineSimilarityL [⟨r, some [1]⟩] from ?_]
  · rw [buildFrom]
    norm_num [initState, mkEntry, initClusters, List.getD, COLORS]
    exact ⟨⟨by decide, by decide⟩, rfl⟩
  · show mergeLoop cosineSimilarityL [(⟨r, some [1]⟩ : Montage ℝ)] t (0 + 1)
        (initState cosineSimilarityL [⟨r, some [1]⟩]) = _
    rw [mergeLoop]
    have hfb : findBest (initState cosineSimilarityL [(⟨r, some [1]⟩ : Montage ℝ)])
        = (-1, none) := rfl
    rw [hfb]

theorem mergeLoop_succ (simF : List β → List β → β) (we : List (Montage β)) (t : β)
    (fuel : Nat) (st : CState β) :
    mergeLoop simF we t (Nat.succ fuel) st
      = (match findBest st with
         | (bestSim, some ij) =>
           if bestSim < t then st
           else mergeLoop simF we t fuel (stepMerge simF we st ij.1 ij.2)
         | (_, none) => st) := rfl

theorem cos11 : cosineSimilarityL [(1 : ℝ)] [1] = 1 := by
  norm_num [cosineSimilarityL, sumSq, dotProd]

theorem pair_init_eval :
    initState cosineSimilarityL [(⟨5, some [1]⟩ : Montage ℝ), ⟨3, some [1]⟩]
      = ⟨[⟨[5], [1]⟩, ⟨[3], [1]⟩], [[-1, 1], [1, -1]], [true, true]⟩ := by
  norm_num [initState, initClusters, initMatrix, cos11, List.range_succ, emptyEntry,
    List.replicate]

theorem pair_findBest_eval :
    findBest (⟨[⟨[5], [1]⟩, ⟨[3], [1]⟩], [[-1, 1], [1, -1]], [true, true]⟩ : CState ℝ)
      = (1, some (0, 1)) := by
  norm_num [findBest, findBestCore, pairList, List.range_succ]

theorem pair_stepMerge_eval :
    stepMerge cosineSimilarityL [(⟨5, some [1]⟩ : Montage ℝ), ⟨3, some [1]⟩]
      (⟨[⟨[5], [1]⟩, ⟨[3], [1]⟩], [[-1, 1], [1, -1]], [true, true]⟩ : CState ℝ) 0 1
      = ⟨[⟨[5, 3], averageEmbedding [[(1 : ℝ)], [1]]⟩, ⟨[3], [1]⟩],
         [[-1, 1], [1, -1]], [true, false]⟩ := rfl

theorem pair_findBest2_eval :
    findBest (⟨[⟨[5, 3], averageEmbedding [[(1 : ℝ)], [1]]⟩, ⟨[3], [1]⟩],
        [[-1, 1], [1, -1]], [true, false]⟩ : CState ℝ)
      = (-1, none) := rfl

theorem cluster_pair_eval :
    cluster [⟨5, some [1]⟩, ⟨3, some [1]⟩] ((1 : ℝ) / 2) none
      = [("athlete_1", ⟨"Athlete 1", "#2563eb", 5, [3, 5]⟩)] := by
  have hfd : filterDedup [(⟨5, some [1]⟩ : Montage ℝ), ⟨3, some [1]⟩] []
      = [⟨5, some [1]⟩, ⟨3, some [1]⟩] := by simp [filterDedup]
  unfold cluster
  rw [clusterW_none_eq_buildFrom _ _ _ (by rw [hfd]; simp), hfd]
  simp only [List.length_cons, List.length_nil]
  rw [show (0 + 1 + 1 : Nat) = Nat.succ 1 from rfl, mergeLoop_succ, pair_init_eval,
    pair_findBest_eval]
  dsimp only
  rw [if_neg (by norm_num)]
  rw [pair_stepMerge_eval, show (1 : Nat) = Nat.succ 0 from rfl, mergeLoop_succ,
    pair_findBest2_eval]
  dsimp only
  rw [show List.range (Nat.succ 1) = [0, 1] from rfl, buildFrom]
  norm_num [mkEntry, COLORS, buildFrom, emptyEntry, List.insertionSort, List.orderedInsert]
  decide

theorem cluster_override_drop :
    cluster [⟨1, some [1]⟩] 2 (some ⟨none, some [(1, "athlete_99")]⟩) = [] := by
  unfold cluster
  rw [clusterW_some_eq]
  dsimp only
  rw [show clusterW cosineSimilarityL [(⟨1, some [1]⟩ : Montage ℝ)] 2 none
      = cluster [⟨1, some [1]⟩] 2 none from rfl, cluster_single_eval 1 2]
  decide

/-! Claim theorems -/

/-- C1 counterexample: run 1 has a non-absent embedding (it survives the
dedup filter), yet clustering with a saved state whose override sends
run 1 to the nonexistent cluster id `athlete_99` returns an assignment
in which run 1 appears in no cluster at all — the claimed partition
property fails in the presence of such an override. -/
theorem C1_partition_counterexample :
    (filterDedup [(⟨1, some [1]⟩ : Montage ℝ)] []).map Montage.run_number = [1] ∧
      cluster [⟨1, some [1]⟩] 2 (some ⟨none, some [(1, "athlete_99")]⟩) = [] :=
  ⟨by simp [filterDedup], cluster_override_drop⟩

/-- C1 (amended): with no saved state, the run numbers of the returned
clusters are a permutation of the run numbers kept by the dedup filter,
so every run with a kept (non-empty) embedding appears in exactly one
cluster; with any saved state the returned clusters are still pairwise
disjoint (the flattened run list has no duplicates), but an override
whose target id is absent from the fresh result can drop its run. -/
theorem C1_partition (m : List (Montage ℝ)) (t : ℝ) :
    (runsFlat (cluster m t none)).Perm ((filterDedup m []).map Montage.run_number) ∧
      ∀ sv : SavedState, (runsFlat (cluster m t (some sv))).Nodup := by
  constructor
  · exact runsFlat_clusterW_none cosineSimilarityL m t
  · intro sv
    have hbase : (runsFlat (clusterW cosineSimilarityL m t none)).Nodup :=
      (runsFlat_clusterW_none cosineSimilarityL m t).nodup_iff.mpr
        (filterDedup_runs_nodup m [])
    show (runsFlat (clusterW cosineSimilarityL m t (some sv))).Nodup
    rw [clusterW_some_eq]
    rcases hc : sv.clusters with _ | saved <;> rcases ho : sv.manual_overrides with _ | ov
    · exact hbase
    · exact nodup_applyOverrides _ ov hbase
    · rw [runsFlat_preserveLabels]
      exact hbase
    · rw [runsFlat_preserveLabels]
      exact nodup_applyOverrides _ ov hbase

/-- C2: for a fixed input and thresholds `t1 < t2`, the partition at
the higher threshold refines the partition at the lower threshold:
every cluster produced at `t2` has its run set contained in the run set
of some cluster produced at `t1`. -/
theorem C2_threshold_monotone (m : List (Montage ℝ)) (t1 t2 : ℝ) (hlt : t1 < t2) :
    ∀ e ∈ cluster m t2 none, ∃ e2 ∈ cluster m t1 none,
      ∀ r ∈ e.2.run_numbers, r ∈ e2.2.run_numbers := by
  intro e he
  by_cases h : (filterDedup m []).length = 0
  · rw [show cluster m t2 none = clusterW cosineSimilarityL m t2 none from rfl,
      clusterW_empty _ _ _ _ h] at he
    exact absurd he (List.not_mem_nil e)
  · rw [show cluster m t2 none = clusterW cosineSimilarityL m t2 none from rfl,
      clusterW_none_eq_buildFrom _ _ _ h] at he
    obtain ⟨k, hkmem, hak, _, hrn⟩ := mem_buildFrom _ _ _ e he
    have hmono := mergeLoop_mono cosineSimilarityL (filterDedup m []) (le_of_lt hlt)
      (filterDedup m []).length (initState cosineSimilarityL (filterDedup m []))
      (initState_WF _ _)
    have hk2 : k < (mergeLoop cosineSimilarityL (filterDedup m []) t2
        (filterDedup m []).length (initState cosineSimilarityL (filterDedup m []))).clusters.length := by
      rw [mergeLoop_clusters_length, initState_clusters_length]
      exact List.mem_range.mp hkmem
    obtain ⟨j, hj, haj, hsub⟩ := hmono k hk2 hak
    have hjmem : j ∈ List.range (filterDedup m []).length := by
      rw [mergeLoop_clusters_length, initState_clusters_length] at hj
      exact List.mem_range.mpr hj
    obtain ⟨e2, he2, hrn2⟩ := buildFrom_mem_of_active _ _ 1 j hjmem haj
    refine ⟨e2, ?_, ?_⟩
    · rw [show cluster m t1 none = clusterW cosineSimilarityL m t1 none from rfl,
        clusterW_none_eq_buildFrom _ _ _ h]
      exact he2
    · intro r hr
      rw [hrn] at hr
      rw [hrn2]
      exact (List.perm_insertionSort _ _).mem_iff.mpr
        (hsub r ((List.perm_insertionSort _ _).mem_iff.mp hr))

/-- C2 witness: concrete instance with thresholds `0 < 1` and a single
embedded run. -/
theorem C2_threshold_monotone_witness :
    (0 : ℝ) < 1 ∧
      ∃ e2 ∈ cluster [⟨5, some [1]⟩] 0 none,
        ∀ r ∈ (("athlete_1", (⟨"Athlete 1", "#2563eb", 5, [5]⟩ : Cluster))
            : String × Cluster).2.run_numbers, r ∈ e2.2.run_numbers :=
  ⟨by norm_num,
   C2_threshold_monotone [⟨5, some [1]⟩] 0 1 (by norm_num)
     ("athlete_1", ⟨"Athlete 1", "#2563eb", 5, [5]⟩)
     (by rw [cluster_single_eval 5 1]; exact List.mem_cons_self _ _)⟩

/-- C3: if the saved overrides (with distinct keys) map run `r` to the
cluster id `B`, and the fresh clustering result contains a cluster with
id `B`, then after reconciliation run `r` is a member of cluster `B`
and of no other cluster — the override wins over the algorithm's own
grouping of `r`. -/
theorem C3_override_persistence (m : List (Montage ℝ)) (t : ℝ) (sv : SavedState)
    (ov : List (Int × String)) (r : Int) (B : String)
    (hov : sv.manual_overrides = some ov) (hkeys : (ov.map Prod.fst).Nodup)
    (hmem : (r, B) ∈ ov) (hB : B ∈ (cluster m t none).map Prod.fst) :
    (∃ e ∈ cluster m t (some sv), e.1 = B ∧ r ∈ e.2.run_numbers) ∧
      ∀ e ∈ cluster m t (some sv), r ∈ e.2.run_numbers → e.1 = B := by
  have hnd : (runsFlat (cluster m t none)).Nodup :=
    (runsFlat_clusterW_none cosineSimilarityL m t).nodup_iff.mpr
      (filterDedup_runs_nodup m [])
  have hover := applyOverrides_onlyIn (cluster m t none) ov r B hnd hkeys hmem hB
  show (∃ e ∈ clusterW cosineSimilarityL m t (some sv), e.1 = B ∧ r ∈ e.2.run_numbers) ∧
    ∀ e ∈ clusterW cosineSimilarityL m t (some sv), r ∈ e.2.run_numbers → e.1 = B
  rw [clusterW_some_eq, hov]
  rcases hc : sv.clusters with _ | saved
  · dsimp only
    exact hover
  · dsimp only
    constructor
    · obtain ⟨e, he, heB, her⟩ := hover.1
      obtain ⟨e2, he2, hid, hrn⟩ := preserveLabels_mem_of _ saved e he
      exact ⟨e2, he2, by rw [hid, heB], by rw [hrn]; exact her⟩
    · intro e2 he2 hre
      obtain ⟨e, he, hid, hrn⟩ := mem_preserveLabels _ saved e2 he2
      rw [hid]
      refine hover.2 e he ?_
      rw [← hrn]
      exact hre

/-- C3 witness: run 5 overridden to `athlete_1`, which exists in the
fresh result. -/
theorem C3_override_persistence_witness :
    ((⟨none, some [(5, "athlete_1")]⟩ : SavedState).manual_overrides
        = some [(5, "athlete_1")] ∧
      (([((5 : Int), "athlete_1")].map Prod.fst)).Nodup ∧
      ((5 : Int), "athlete_1") ∈ [((5 : Int), "athlete_1")] ∧
      "athlete_1" ∈ (cluster [⟨5, some [1]⟩] 2 none).map Prod.fst) ∧
      ((∃ e ∈ cluster [⟨5, some [1]⟩] 2 (some ⟨none, some [(5, "athlete_1")]⟩),
          e.1 = "athlete_1" ∧ (5 : Int) ∈ e.2.run_numbers) ∧
        ∀ e ∈ cluster [⟨5, some [1]⟩] 2 (some ⟨none, some [(5, "athlete_1")]⟩),
          (5 : Int) ∈ e.2.run_numbers → e.1 = "athlete_1") :=
  ⟨⟨rfl, by decide, by decide, by rw [cluster_single_eval 5 2]; decide⟩,
   C3_override_persistence [⟨5, some [1]⟩] 2 ⟨none, some [(5, "athlete_1")]⟩
     [(5, "athlete_1")] 5 "athlete_1" rfl (by decide) (by decide)
     (by rw [cluster_single_eval 5 2]; decide)⟩

/-- C4 counterexample: two montages with identical embeddings arrive in
run order 5, 3; they merge into one cluster whose `representative_run`
is 5 (the first run in encounter order, read before the in-place sort)
while the smallest member of `run_numbers = [3, 5]` is 3 — so the
representative is not the smallest run number. -/
theorem C4_representative_counterexample :
    (cluster [⟨5, some [1]⟩, ⟨3, some [1]⟩] ((1 : ℝ) / 2) none).map
        (fun e => (e.2.representative_run, e.2.run_numbers)) = [(5, [3, 5])] := by
  rw [cluster_pair_eval]
  decide

/-- C4 (amended): for every cluster of a fresh result, `run_numbers` is
sorted ascending, and `representative_run` is the first run of the
cluster in encounter order — always a member of `run_numbers`, though
not necessarily its smallest element. -/
theorem C4_representative_sorted (m : List (Montage ℝ)) (t : ℝ) :
    ∀ e ∈ cluster m t none,
      List.Sorted (fun a b : Int => a ≤ b) e.2.run_numbers ∧
        e.2.representative_run ∈ e.2.run_numbers := by
  intro e he
  have h := clusterW_none_entries cosineSimilarityL m t e he
  exact ⟨h.2, h.1⟩

/-- C4 witness: concrete singleton cluster. -/
theorem C4_representative_sorted_witness :
    (("athlete_1", (⟨"Athlete 1", "#2563eb", 5, [5]⟩ : Cluster))
        ∈ cluster [⟨5, some [1]⟩] 2 none) ∧
      (List.Sorted (fun a b : Int => a ≤ b)
          (("athlete_1", (⟨"Athlete 1", "#2563eb", 5, [5]⟩ : Cluster))
            : String × Cluster).2.run_numbers ∧
        (("athlete_1", (⟨"Athlete 1", "#2563eb", 5, [5]⟩ : Cluster))
            : String × Cluster).2.representative_run
          ∈ (("athlete_1", (⟨"Athlete 1", "#2563eb", 5, [5]⟩ : Cluster))
            : String × Cluster).2.run_numbers) :=
  ⟨by rw [cluster_single_eval 5 2]; exact List.mem_cons_self _ _,
   C4_representative_sorted [⟨5, some [1]⟩] 2 _
     (by rw [cluster_single_eval 5 2]; exact List.mem_cons_self _ _)⟩

/-- C5: `preserveLabels` relabels each fresh cluster from the first
saved cluster attaining the maximal run-number overlap, exactly when
that maximal overlap is positive and the saved label is not a default
`Athlete N` label, and leaves the cluster unchanged otherwise; moreover
`maxOverlap` bounds the overlap of every saved cluster. -/
theorem C5_label_preservation (nc sc : List (String × Cluster)) :
    (preserveLabels nc sc = nc.map (fun e =>
      match sc.find? (fun s => overlap e.2.run_numbers s.2.run_numbers
          == maxOverlap e.2.run_numbers sc) with
      | some s =>
        if 0 < maxOverlap e.2.run_numbers sc ∧ isDefaultLabel s.2.label = false
        then (e.1, { e.2 with label := s.2.label }) else e
      | none => e)) ∧
      ∀ (nrs : List Int), ∀ s ∈ sc, overlap nrs s.2.run_numbers ≤ maxOverlap nrs sc := by
  constructor
  · exact preserveLabels_eq nc sc
  · intro nrs s hs
    exact mem_le_foldMaxOv nrs sc 0 s hs

/-- C5 witness: a saved custom label on an overlapping cluster. -/
theorem C5_label_preservation_witness :
    (("x", (⟨"Jordan", "", 5, [5, 9]⟩ : Cluster)) ∈ [("x", (⟨"Jordan", "", 5, [5, 9]⟩ : Cluster))]) ∧
      overlap [5] (⟨"Jordan", "", 5, [5, 9]⟩ : Cluster).run_numbers
        ≤ maxOverlap [5] [("x", (⟨"Jordan", "", 5, [5, 9]⟩ : Cluster))] :=
  ⟨by decide,
   (C5_label_preservation [("athlete_1", ⟨"Athlete 1", "#2563eb", 5, [5]⟩)]
     [("x", ⟨"Jordan", "", 5, [5, 9]⟩)]).2 [5] ("x", ⟨"Jordan", "", 5, [5, 9]⟩) (by decide)⟩

/-- C6: `cosineSimilarity` is symmetric in its arguments, and returns
exactly 0 when either argument is absent, when the vector lengths
differ, and when either vector has zero magnitude (zero sum of
squares). -/
theorem C6_cosine_symmetric_zero :
    (∀ a b : Option (List ℝ), cosineSimilarity a b = cosineSimilarity b a) ∧
      (∀ b : Option (List ℝ), cosineSimilarity none b = 0) ∧
      (∀ a : Option (List ℝ), cosineSimilarity a none = 0) ∧
      (∀ x y : List ℝ, x.length ≠ y.length → cosineSimilarityL x y = 0) ∧
      (∀ x y : List ℝ, sumSq x = 0 → cosineSimilarityL x y = 0) ∧
      (∀ x y : List ℝ, sumSq y = 0 → cosineSimilarityL x y = 0) :=
  ⟨cosineSimilarity_comm, cosineSimilarity_none_left, cosineSimilarity_none_right,
   cosineSimilarityL_length_ne, cosineSimilarityL_zero_left, cosineSimilarityL_zero_right⟩

/-- C6 witness: mismatched lengths and a zero-magnitude vector both
yield exactly 0. -/
theorem C6_cosine_symmetric_zero_witness :
    (([(1 : ℝ)].length ≠ ([1, 2] : List ℝ).length) ∧ cosineSimilarityL [(1 : ℝ)] [1, 2] = 0) ∧
      ((sumSq ([0] : List ℝ) = 0) ∧ cosineSimilarityL [(0 : ℝ)] [1] = 0) ∧
      ((sumSq ([0] : List ℝ) = 0) ∧ cosineSimilarityL [(1 : ℝ)] [0] = 0) :=
  ⟨⟨by norm_num, C6_cosine_symmetric_zero.2.2.2.1 [1] [1, 2] (by norm_num)⟩,
   ⟨by norm_num [sumSq], C6_cosine_symmetric_zero.2.2.2.2.1 [0] [1] (by norm_num [sumSq])⟩,
   ⟨by norm_num [sumSq], C6_cosine_symmetric_zero.2.2.2.2.2 [1] [0] (by norm_num [sumSq])⟩⟩

/-- C7: the merge loop reaches its fixed point within `n - 1`
iterations for `n` initial clusters — running it with any additional
fuel beyond `n - 1` returns the same state, which is the termination
bound of the JS `while (true)` loop (each iteration either merges,
permanently deactivating one cluster, or exits). -/
theorem C7_mergeLoop_terminates (m : List (Montage ℝ)) (t : ℝ) (k : Nat) :
    mergeLoop cosineSimilarityL (filterDedup m []) t (((filterDedup m []).length - 1) + k)
        (initState cosineSimilarityL (filterDedup m []))
      = mergeLoop cosineSimilarityL (filterDedup m []) t ((filterDedup m []).length - 1)
        (initState cosineSimilarityL (filterDedup m [])) := by
  refine mergeLoop_stable cosineSimilarityL (filterDedup m []) t
    ((filterDedup m []).length - 1) (initState cosineSimilarityL (filterDedup m []))
    (initState_WF _ _) ?_ k
  rw [countActive_initState]
  omega

/-- C9: with no saved state, every returned cluster's
`representative_run` is a member of its own `run_numbers` list. -/
theorem C9_representative_mem (m : List (Montage ℝ)) (t : ℝ) :
    ∀ e ∈ cluster m t none, e.2.representative_run ∈ e.2.run_numbers :=
  fun e he => (clusterW_none_entries cosineSimilarityL m t e he).1

/-- C9 witness: concrete singleton cluster. -/
theorem C9_representative_mem_witness :
    (("athlete_1", (⟨"Athlete 1", "#2563eb", 5, [5]⟩ : Cluster))
        ∈ cluster [⟨5, some [1]⟩] 2 none) ∧
      (("athlete_1", (⟨"Athlete 1", "#2563eb", 5, [5]⟩ : Cluster))
          : String × Cluster).2.representative_run
        ∈ (("athlete_1", (⟨"Athlete 1", "#2563eb", 5, [5]⟩ : Cluster))
          : String × Cluster).2.run_numbers :=
  ⟨by rw [cluster_single_eval 5 2]; exact List.mem_cons_self _ _,
   C9_representative_mem [⟨5, some [1]⟩] 2 _
     (by rw [cluster_single_eval 5 2]; exact List.mem_cons_self _ _)⟩

/-- C10: a record whose embedding is the empty list is excluded from
clustering exactly as if it were absent (the whole cluster result is
unchanged when such a record is removed from the input), and for each
run number the record kept by the dedup filter is the first record in
input order carrying a non-empty embedding. -/
theorem C10_dedup_first_kept (mo : Montage ℝ)
    (hdeg : mo.embedding = none ∨ mo.embedding = some []) :
    (∀ (pre post : List (Montage ℝ)) (t : ℝ) (s : Option SavedState),
        cluster (pre ++ mo :: post) t s = cluster (pre ++ post) t s) ∧
      ∀ (ms : List (Montage ℝ)) (r : Int),
        ((filterDedup ms []).find? (fun m2 => m2.run_number == r))
          = ms.find? (fun m2 => m2.run_number == r && !(m2.embedding.getD []).isEmpty) := by
  constructor
  · intro pre post t s
    exact clusterW_degenerate cosineSimilarityL mo hdeg pre post t s
  · intro ms r
    rw [filterDedup_find? r ms [], if_neg (List.not_mem_nil r)]

/-- C10 witness: an empty-embedding record for run 7 leaves the result
unchanged. -/
theorem C10_dedup_first_kept_witness :
    ((⟨7, some []⟩ : Montage ℝ).embedding = none
        ∨ (⟨7, some []⟩ : Montage ℝ).embedding = some []) ∧
      cluster [⟨7, some []⟩, ⟨5, some [1]⟩] 2 none = cluster [⟨5, some [1]⟩] 2 none :=
  ⟨Or.inr rfl,
   (C10_dedup_first_kept ⟨7, some []⟩ (Or.inr rfl)).1 [] [⟨5, some [1]⟩] 2 none⟩

theorem stepMergeH_store (we : List MontageRef) (σ : Store) (st : CStateH) (i j : Nat) :
    ∃ ext : Store, (stepMergeH we σ st i j).1 = σ ++ ext :=
  ⟨[averageEmbedding ((((st.clusters.getD i emptyEntryH).runs
      ++ (st.clusters.getD j emptyEntryH).runs).map (fun rn => lookupEmbRef we rn)).map
        (readVec σ))], rfl⟩

theorem mergeLoopH_store (we : List MontageRef) (t : ℝ) :
    ∀ (fuel : Nat) (p : Store × CStateH), ∃ ext : Store, (mergeLoopH we t fuel p).1 = p.1 ++ ext
  | 0, p => ⟨[], (List.append_nil p.1).symm⟩
  | Nat.succ fuel, p => by
    rw [mergeLoopH]
    rcases hfb : findBestH p.2 with ⟨s, o⟩
    rcases o with _ | ij
    · exact ⟨[], (List.append_nil p.1).symm⟩
    · dsimp only
      split
      · exact ⟨[], (List.append_nil p.1).symm⟩
      · obtain ⟨ext1, hext1⟩ := stepMergeH_store we p.1 p.2 ij.1 ij.2
        obtain ⟨ext2, hext2⟩ := mergeLoopH_store we t fuel (stepMergeH we p.1 p.2 ij.1 ij.2)
        exact ⟨ext1 ++ ext2, by rw [hext2, hext1, List.append_assoc]⟩

/-- C8: `cluster()` never mutates its input — at the store level, the
final store is the initial store extended by freshly allocated merge
centroids only, so every input embedding array (any cell allocated
before the call) reads back element-for-element unchanged, and the
input run records (plain values in the model, never assigned in the
source) are unchanged. -/
theorem C8_no_input_mutation (montages : List MontageRef) (t : ℝ) (s : Option SavedState)
    (σ : Store) :
    ∃ ext : Store, (clusterH montages t s σ).2 = σ ++ ext ∧
      ∀ i, i < σ.length → readVec (σ ++ ext) i = readVec σ i := by
  have hread : ∀ ext : Store, ∀ i, i < σ.length → readVec (σ ++ ext) i = readVec σ i := by
    intro ext i hi
    unfold readVec
    exact List.getD_append σ ext [] i hi
  unfold clusterH
  dsimp only
  split
  · exact ⟨[], (List.append_nil σ).symm, hread []⟩
  · obtain ⟨ext, hext⟩ := mergeLoopH_store (filterDedupH σ montages []) t
      (filterDedupH σ montages []).length (σ, initStateH σ (filterDedupH σ montages []))
    exact ⟨ext, hext, hread ext⟩

end Clustering
